import Mathlib

/-
Verification development for the dft crate: an in-place radix-2 Cooley-Tukey
discrete Fourier transform over power-of-two buffers, with a real-input
variant and a spectrum unpacker.

The embedding models complex buffers as total functions from indices to the
Mathlib complex numbers (exact real arithmetic), in-place mutation as
Function.update, the MaybeUninit output regions of Plan construction and
unpack as a write-ordered list and an Option-valued map respectively, and
the two power-of-two assertions as Option-returning wrappers.
-/

namespace DFT

/-- Model of the Operation enumeration of src/lib.rs. -/
inductive Operation
  | Forward
  | Backward
  | Inverse
deriving DecidableEq

/-- The angle sign chosen in Plan::new: minus one for Forward and plus one
for Backward and Inverse. -/
noncomputable def opSign : Operation → ℝ
  | Operation.Forward => -1
  | _ => 1

/-- Unit-circle point with angle theta, used to state factor values and DFT sums. -/
noncomputable def eit (theta : ℝ) : ℂ := Complex.exp (theta * Complex.I)

/-- The per-stage multiplier computed in Plan::new: with theta = pi / step and
sine = sin (theta / 2), the complex number (-2 * sine * sine, sign * sin theta). -/
noncomputable def stageMultiplier (op : Operation) (step : ℕ) : ℂ :=
  let theta : ℝ := Real.pi / step
  let sine : ℝ := Real.sin (theta / 2)
  ⟨-2 * sine * sine, opSign op * Real.sin theta⟩

/-- The factor recurrence of Plan::new: factor starts at one and each write is
followed by factor = multiplier * factor + factor. stageFactor op step t is the
factor written at offset t of the stage for this step. -/
noncomputable def stageFactor (op : Operation) (step : ℕ) : ℕ → ℂ
  | 0 => 1
  | t + 1 => stageMultiplier op step * stageFactor op step t + stageFactor op step t

/-- The step entries written by the inner for loop of Plan::new for one stage. -/
noncomputable def stageEntries (op : Operation) (step : ℕ) : List ℂ :=
  (List.range step).map (stageFactor op step)

/-- The while step < N loop of Plan::new, emitting table entries in write order;
step doubles each stage.  The 0 < step guard only totalises the model: the
caller starts at step = 1 and step only doubles, so it is never violated. -/
noncomputable def planLoop (op : Operation) (N : ℕ) (step : ℕ) : List ℂ :=
  if h : 0 < step ∧ step < N then stageEntries op step ++ planLoop op N (2 * step)
  else []
termination_by N - step
decreasing_by omega

/-- The factor-table contents produced by Plan::new for size N, in write order
(the loop starts at step = 1).  Its length is the number of initialised slots
of the length-N MaybeUninit factors region. -/
noncomputable def planFactorsList (op : Operation) (N : ℕ) : List ℂ :=
  planLoop op N 1

/-- The factors array as read through factors.get_unchecked(k): entry k of the
written sequence; a slot beyond the written part is modelled by the junk value
zero (such a slot is never read by the transforms). -/
noncomputable def planF (op : Operation) (N : ℕ) : ℕ → ℂ :=
  fun k => (planFactorsList op N).getD k 0

/-- Model of usize::is_power_of_two, the condition of the assert in Plan::new
and in unpack. -/
def isPow2 (n : ℕ) : Bool :=
  (List.range (n + 1)).any fun k => n == 2 ^ k

/-- Plan::new with its assert!(N.is_power_of_two()) modelled as an Option:
none is the fatal assertion, some holds the factor table. -/
noncomputable def planNewChecked (op : Operation) (N : ℕ) : Option (List ℂ) :=
  if isPow2 N then some (planFactorsList op N) else none

/-- Naturals bit-reversal on n bits: the specification permutation of the
rearrange step. -/
def bitRev : ℕ → ℕ → ℕ
  | 0, _ => 0
  | n + 1, i => bitRev n (i / 2) + i % 2 * 2 ^ n

/-- The inner while of rearrange (src/complex.rs): while j and mask is nonzero,
clear that bit of j (j &= !mask, width-independently Nat.ldiff) and halve mask;
afterwards j |= mask. -/
def revIncAux (j mask : ℕ) : ℕ :=
  if h : j &&& mask ≠ 0 then revIncAux (Nat.ldiff j mask) (mask / 2)
  else j ||| mask
termination_by mask
decreasing_by
  rcases Nat.eq_zero_or_pos mask with hm | hm
  · subst hm; simp at h
  · omega

/-- One bit-reversed increment of the counter j in rearrange: mask starts at
N >> 1. -/
def revInc (N j : ℕ) : ℕ := revIncAux j (N / 2)

/-- The for i in 0..N loop of rearrange: swap data[i] and data[j] when j > i,
then advance j by a bit-reversed increment. -/
noncomputable def rearrangeLoop (N : ℕ) (i j : ℕ) (d : ℕ → ℂ) : ℕ → ℂ :=
  if h : i < N then
    let d' := if j > i then Function.update (Function.update d i (d j)) j (d i) else d
    rearrangeLoop N (i + 1) (revInc N j) d'
  else d
termination_by N - i
decreasing_by omega

/-- rearrange (src/complex.rs): the in-place bit-reversal permutation pass. -/
noncomputable def rearrange (N : ℕ) (d : ℕ → ℂ) : ℕ → ℂ :=
  rearrangeLoop N 0 0 d

/-- The innermost while i < N loop of calculate: butterflies on the pair
(i, i + step) with the fixed twiddle fk = factors[k], advancing i by
jump = 2 * step.  data[j] is written first from the old data[i], then data[i].
The 0 < step guard only totalises the model (the stage counter is never 0). -/
noncomputable def innerLoop (N step : ℕ) (fk : ℂ) (i : ℕ) (d : ℕ → ℂ) : ℕ → ℂ :=
  if h : i < N ∧ 0 < step then
    let j := i + step
    let product := fk * d j
    let d' := Function.update (Function.update d j (d i - product)) i (d i + product)
    innerLoop N step fk (i + 2 * step) d'
  else d
termination_by N - i
decreasing_by omega

/-- The for mut i in 0..step loop of calculate: group c runs the inner while
from i = c with factors[k], then k increments. -/
noncomputable def groupLoop (N step : ℕ) (f : ℕ → ℂ) (c k : ℕ) (d : ℕ → ℂ) : ℕ → ℂ :=
  if h : c < step then groupLoop N step f (c + 1) (k + 1) (innerLoop N step (f k) c d)
  else d
termination_by step - c
decreasing_by omega

/-- The outer while step < N loop of calculate; step doubles, k has advanced by
step after each stage.  The 0 < step guard only totalises the model. -/
noncomputable def stageLoop (N : ℕ) (f : ℕ → ℂ) (step k : ℕ) (d : ℕ → ℂ) : ℕ → ℂ :=
  if h : 0 < step ∧ step < N then
    stageLoop N f (2 * step) (k + step) (groupLoop N step f 0 k d)
  else d
termination_by N - step
decreasing_by omega

/-- calculate (src/complex.rs): the iterative butterfly passes, starting at
step = 1 and k = 0. -/
noncomputable def calculate (N : ℕ) (f : ℕ → ℂ) (d : ℕ → ℂ) : ℕ → ℂ :=
  stageLoop N f 1 0 d

/-- scale (src/complex.rs): multiply each of the n elements by 1 / n. -/
noncomputable def scale (N : ℕ) (d : ℕ → ℂ) : ℕ → ℂ :=
  fun x => if x < N then d x * (N : ℂ)⁻¹ else d x

/-- Transform::transform for a complex buffer (src/complex.rs): rearrange, the
butterfly passes, and scale only when the operation is Inverse.  f is the factor
table of the plan. -/
noncomputable def ctransform (op : Operation) (N : ℕ) (f : ℕ → ℂ) (d : ℕ → ℂ) : ℕ → ℂ :=
  let d1 := rearrange N d
  let d2 := calculate N f d1
  if op = Operation.Inverse then scale N d2 else d2

/-- The for i in 1..h loop of compose (src/real.rs), pairing index i with
j = M - i; m = factors.len() = M in the source. -/
noncomputable def composeLoop (M : ℕ) (f : ℕ → ℂ) (sgn : ℂ) (i : ℕ) (d : ℕ → ℂ) : ℕ → ℂ :=
  if hi : i < M / 2 then
    let j := M - i
    let part1 := d i + (starRingEnd ℂ) (d j)
    let part2 := d i - (starRingEnd ℂ) (d j)
    let product := sgn * f (M - j) * part2
    let d' := Function.update (Function.update d i ((part1 + product) * (2 : ℂ)⁻¹)) j
      ((starRingEnd ℂ) ((part1 - product) * (2 : ℂ)⁻¹))
    composeLoop M f sgn (i + 1) d'
  else d
termination_by M / 2 - i
decreasing_by omega

/-- compose (src/real.rs): the DC/Nyquist combination at index 0 (halved only
when decomposing), the pairing loop, and conjugation of the self-paired middle
index. -/
noncomputable def compose (M : ℕ) (f : ℕ → ℂ) (inverse : Bool) (d : ℕ → ℂ) : ℕ → ℂ :=
  let d0 := Function.update d 0 ⟨(d 0).re + (d 0).im, (d 0).re - (d 0).im⟩
  let d1 := if inverse then Function.update d0 0 (d0 0 * (2 : ℂ)⁻¹) else d0
  if M / 2 = 0 then d1
  else
    let sgn : ℂ := if inverse then Complex.I else -Complex.I
    let d2 := composeLoop M f sgn 1 d1
    Function.update d2 (M / 2) ((starRingEnd ℂ) (d2 (M / 2)))

/-- The compile-time bound Assert with N / 2 > 0 on the real-data Transform
impl (src/real.rs): the impl exists exactly when this proposition holds. -/
def realTransformDefined (N : ℕ) : Prop := N / 2 > 0

/-- The zero-copy complex view of a real buffer: adjacent real pairs become
real and imaginary parts. -/
noncomputable def asComplex (d : ℕ → ℝ) : ℕ → ℂ :=
  fun i => ⟨d (2 * i), d (2 * i + 1)⟩

/-- Reading the complex view back into the underlying real storage. -/
noncomputable def fromComplex (c : ℕ → ℂ) : ℕ → ℝ :=
  fun i => if i % 2 = 0 then (c (i / 2)).re else (c (i / 2)).im

/-- The body of Transform::transform for a real buffer (src/real.rs): the early
return when N / 2 = 0, then the complex view of size N / 2, with transform
before compose for Forward and compose before transform for Backward and
Inverse.  f is the factor table of the (reinterpreted) plan. -/
noncomputable def realTransformBody (op : Operation) (N : ℕ) (f : ℕ → ℂ) (d : ℕ → ℝ) : ℕ → ℝ :=
  if N / 2 = 0 then d
  else
    let data := asComplex d
    let data' :=
      match op with
      | Operation.Forward => compose (N / 2) f false (ctransform op (N / 2) f data)
      | _ => ctransform op (N / 2) f (compose (N / 2) f true data)
    fun i => if i < N then fromComplex data' i else d i

/-- The for i in 1..h loop of unpack (src/real.rs) writing slots 1 to h - 1 of
the MaybeUninit output region (none models an uninitialised slot). -/
noncomputable def unpackLow (d : ℕ → ℝ) (h : ℕ) (i : ℕ) (m : ℕ → Option ℂ) : ℕ → Option ℂ :=
  if hi : i < h then
    unpackLow d h (i + 1) (Function.update m i (some ⟨d (2 * i), d (2 * i + 1)⟩))
  else m
termination_by h - i
decreasing_by omega

/-- The for i in (h+1)..N loop of unpack, writing each upper slot as the
conjugate of the already-initialised slot N - i (an uninitialised read would
yield junk, modelled by zero; it never happens). -/
noncomputable def unpackHigh (N : ℕ) (i : ℕ) (m : ℕ → Option ℂ) : ℕ → Option ℂ :=
  if hi : i < N then
    unpackHigh N (i + 1) (Function.update m i (some ((starRingEnd ℂ) ((m (N - i)).getD 0))))
  else m
termination_by N - i
decreasing_by omega

/-- unpack (src/real.rs) after its assert: slot 0 gets data[0], the early
return when h = N / 2 = 0, slots 1 to h - 1 get the packed pairs, slot h gets
data[1], and slots h + 1 to N - 1 mirror by conjugation. -/
noncomputable def unpackU (N : ℕ) (d : ℕ → ℝ) : ℕ → Option ℂ :=
  let m1 := Function.update (fun _ => (none : Option ℂ)) 0 (some ((d 0 : ℂ)))
  let h := N / 2
  if h = 0 then m1
  else
    let m2 := unpackLow d h 1 m1
    let m3 := Function.update m2 h (some ((d 1 : ℂ)))
    unpackHigh N (h + 1) m3

/-- unpack including its assert!(N.is_power_of_two()), modelled as an Option. -/
noncomputable def unpackChecked (N : ℕ) (d : ℕ → ℝ) : Option (ℕ → Option ℂ) :=
  if isPow2 N then some (unpackU N d) else none

/-- The textbook DFT sum with angle sign sign: the spec formula that C1 states
for the forward transform. -/
noncomputable def dftSum (sign : ℝ) (N : ℕ) (x : ℕ → ℂ) (k : ℕ) : ℂ :=
  ∑ u ∈ Finset.range N, x u * eit (sign * (2 * Real.pi * (k * u)) / N)

/-- The partial DFT held in block b after s butterfly stages: the 2^s-point DFT
(with angle sign sign) of the stride subsequence of the original data selected
by the bit-reversed block index. -/
noncomputable def subDFT (sign : ℝ) (n : ℕ) (x : ℕ → ℂ) (s b t : ℕ) : ℂ :=
  ∑ u ∈ Finset.range (2 ^ s),
    x (u * 2 ^ (n - s) + bitRev (n - s) b) * eit (sign * (2 * Real.pi * (t * u)) / 2 ^ s)

/-- Pointwise description of one whole butterfly stage (derived below from the
three nested loops of calculate). -/
noncomputable def stageMap (N step : ℕ) (f : ℕ → ℂ) (k : ℕ) (d : ℕ → ℂ) : ℕ → ℂ :=
  fun x =>
    if x < N ∧ x % (2 * step) < step then d x + f (k + x % (2 * step)) * d (x + step)
    else if x < N then d (x - step) - f (k + (x % (2 * step) - step)) * d x
    else d x

/-! Basic facts about the unit-circle map eit. -/

lemma eit_add (a b : ℝ) : eit (a + b) = eit a * eit b := by
  unfold eit
  rw [← Complex.exp_add]
  congr 1
  push_cast
  ring

lemma eit_zero : eit 0 = 1 := by
  simp [eit]

lemma eit_nat_mul (u : ℕ) (theta : ℝ) : eit (u * theta) = eit theta ^ u := by
  unfold eit
  rw [← Complex.exp_nat_mul]
  congr 1
  push_cast
  ring

lemma eit_eq_mk (theta : ℝ) : eit theta = ⟨Real.cos theta, Real.sin theta⟩ := by
  apply Complex.ext
  · simpa [eit] using Complex.exp_ofReal_mul_I_re theta
  · simpa [eit] using Complex.exp_ofReal_mul_I_im theta

lemma eit_int_two_pi (m : ℤ) : eit (2 * Real.pi * m) = 1 := by
  unfold eit
  rw [show ((2 * Real.pi * m : ℝ) : ℂ) * Complex.I
      = (m : ℂ) * (2 * Real.pi * Complex.I) by push_cast; ring]
  exact Complex.exp_int_mul_two_pi_mul_I m

lemma opSign_cases (op : Operation) : opSign op = 1 ∨ opSign op = -1 := by
  cases op <;> simp [opSign]

lemma eit_opSign_two_pi_nat (op : Operation) (v : ℕ) :
    eit (opSign op * (2 * Real.pi * v)) = 1 := by
  rcases opSign_cases op with h | h <;> rw [h]
  · simpa using eit_int_two_pi (v : ℤ)
  · rw [show (-1 : ℝ) * (2 * Real.pi * v) = 2 * Real.pi * ((-v : ℤ) : ℝ) by push_cast; ring]
    exact eit_int_two_pi (-(v : ℤ))

lemma eit_opSign_pi (op : Operation) : eit (opSign op * Real.pi) = -1 := by
  rcases opSign_cases op with h | h <;> rw [h]
  · simpa [eit] using Complex.exp_pi_mul_I
  · have : eit (-1 * Real.pi) * eit Real.pi = 1 := by
      rw [← eit_add]; norm_num [eit_zero]
    have hpi : eit Real.pi = -1 := by simpa [eit] using Complex.exp_pi_mul_I
    rw [hpi] at this
    linear_combination -this

/-! Bit reversal: the specification permutation of the rearrange pass. -/

lemma bitRev_lt (n : ℕ) : ∀ i, bitRev n i < 2 ^ n := by
  induction n with
  | zero => intro i; simp [bitRev]
  | succ n ih =>
    intro i
    have h1 := ih (i / 2)
    have h2 : i % 2 ≤ 1 := by omega
    have h3 : i % 2 * 2 ^ n ≤ 2 ^ n := by
      calc i % 2 * 2 ^ n ≤ 1 * 2 ^ n := Nat.mul_le_mul_right _ h2
        _ = 2 ^ n := one_mul _
    have h4 : (2 : ℕ) ^ (n + 1) = 2 ^ n + 2 ^ n := by ring
    simp only [bitRev]
    omega

lemma bitRev_zero (n : ℕ) : bitRev n 0 = 0 := by
  induction n with
  | zero => rfl
  | succ n ih => simp [bitRev, ih]

lemma bitRev_two_mul (n m : ℕ) : bitRev (n + 1) (2 * m) = bitRev n m := by
  have h1 : 2 * m / 2 = m := by omega
  have h2 : 2 * m % 2 = 0 := by omega
  simp [bitRev, h1, h2]

lemma bitRev_two_mul_add_one (n m : ℕ) :
    bitRev (n + 1) (2 * m + 1) = bitRev n m + 2 ^ n := by
  have h1 : (2 * m + 1) / 2 = m := by omega
  have h2 : (2 * m + 1) % 2 = 1 := by omega
  simp [bitRev, h1, h2]

lemma bitRev_add_two_pow : ∀ n a b, a < 2 ^ n → b ≤ 1 →
    bitRev (n + 1) (a + b * 2 ^ n) = b + 2 * bitRev n a := by
  intro n
  induction n with
  | zero =>
    intro a b ha hb
    interval_cases a
    interval_cases b <;> simp [bitRev]
  | succ n ih =>
    intro a b ha hb
    have hpow : (2 : ℕ) ^ (n + 1) = 2 * 2 ^ n := by ring
    have hq : a + b * 2 ^ (n + 1) = a + 2 * (b * 2 ^ n) := by rw [hpow]; ring
    have hdiv : (a + b * 2 ^ (n + 1)) / 2 = a / 2 + b * 2 ^ n := by
      rw [hq]; omega
    have hmod : (a + b * 2 ^ (n + 1)) % 2 = a % 2 := by
      rw [hq]; omega
    have ha2 : a / 2 < 2 ^ n := by rw [hpow] at ha; omega
    have e1 : bitRev (n + 1 + 1) (a + b * 2 ^ (n + 1))
        = bitRev (n + 1) ((a + b * 2 ^ (n + 1)) / 2)
          + (a + b * 2 ^ (n + 1)) % 2 * 2 ^ (n + 1) := rfl
    rw [e1, hdiv, hmod, ih (a / 2) b ha2 hb]
    have hbits : bitRev (n + 1) a = bitRev n (a / 2) + a % 2 * 2 ^ n := rfl
    rw [hbits, hpow]
    rcases Nat.mod_two_eq_zero_or_one a with h | h <;> rw [h] <;> ring

lemma bitRev_bitRev : ∀ n, ∀ i < 2 ^ n, bitRev n (bitRev n i) = i := by
  intro n
  induction n with
  | zero => intro i hi; interval_cases i; rfl
  | succ n ih =>
    intro i hi
    have h1 : bitRev n (i / 2) < 2 ^ n := bitRev_lt n _
    have h2 : i % 2 ≤ 1 := by omega
    have h3 : i / 2 < 2 ^ n := by
      have : (2 : ℕ) ^ (n + 1) = 2 * 2 ^ n := by ring
      omega
    have hstep : bitRev (n + 1) i = bitRev n (i / 2) + i % 2 * 2 ^ n := by simp [bitRev]
    rw [hstep, bitRev_add_two_pow n _ _ h1 h2, ih _ h3]
    omega

lemma bitRev_inj {n i j : ℕ} (hi : i < 2 ^ n) (hj : j < 2 ^ n)
    (h : bitRev n i = bitRev n j) : i = j := by
  have := bitRev_bitRev n i hi
  rw [h, bitRev_bitRev n j hj] at this
  exact this.symm

lemma bitRev_mod : ∀ n i, bitRev n (i % 2 ^ n) = bitRev n i := by
  intro n
  induction n with
  | zero => intro i; rfl
  | succ n ih =>
    intro i
    have hpow : (2 : ℕ) ^ (n + 1) = 2 * 2 ^ n := by ring
    have hdiv : i % 2 ^ (n + 1) / 2 = i / 2 % 2 ^ n := by
      rw [hpow]; exact Nat.mod_mul_right_div_self i 2 (2 ^ n)
    have hmod : i % 2 ^ (n + 1) % 2 = i % 2 := by
      apply Nat.mod_mod_of_dvd
      exact ⟨2 ^ n, by rw [hpow]⟩
    simp only [bitRev, hdiv, hmod, ih]

/-! Bitwise helpers for the reversed-increment counter. -/

lemma land_two_pow_of_lt {a n : ℕ} (h : a < 2 ^ n) : a &&& 2 ^ n = 0 := by
  apply Nat.eq_of_testBit_eq
  intro j
  rw [Nat.testBit_land]
  rcases eq_or_ne j n with rfl | hj
  · simp [Nat.testBit_lt_two_pow h]
  · simp [Nat.testBit_two_pow_of_ne (Ne.symm hj)]

lemma add_two_pow_land {a n : ℕ} (h : a < 2 ^ n) : (a + 2 ^ n) &&& 2 ^ n = 2 ^ n := by
  apply Nat.eq_of_testBit_eq
  intro j
  rw [Nat.testBit_land]
  rcases eq_or_ne j n with rfl | hj
  · rw [Nat.add_comm, Nat.testBit_two_pow_add_eq, Nat.testBit_lt_two_pow h]
    simp
  · rcases lt_or_gt_of_ne hj with hlt | hgt
    · rw [Nat.add_comm, Nat.testBit_two_pow_add_gt hlt]
      simp [Nat.testBit_two_pow_of_ne (Ne.symm hj)]
    · have hle : 2 ^ (n + 1) ≤ 2 ^ j := Nat.pow_le_pow_right (by norm_num) hgt
      have hsum : (2 : ℕ) ^ (n + 1) = 2 ^ n + 2 ^ n := by ring
      have hlt2 : a + 2 ^ n < 2 ^ j := by omega
      rw [Nat.testBit_lt_two_pow hlt2]
      simp [Nat.testBit_two_pow_of_ne (Ne.symm hj)]

lemma add_two_pow_ldiff {a n : ℕ} (h : a < 2 ^ n) : Nat.ldiff (a + 2 ^ n) (2 ^ n) = a := by
  apply Nat.eq_of_testBit_eq
  intro j
  rw [Nat.testBit_ldiff]
  rcases eq_or_ne j n with rfl | hj
  · rw [Nat.testBit_two_pow_self, Nat.testBit_lt_two_pow h]
    simp
  · rw [Nat.testBit_two_pow_of_ne (Ne.symm hj)]
    rcases lt_or_gt_of_ne hj with hlt | hgt
    · rw [Nat.add_comm, Nat.testBit_two_pow_add_gt hlt]
      simp
    · have hle : 2 ^ (n + 1) ≤ 2 ^ j := Nat.pow_le_pow_right (by norm_num) hgt
      have hsum : (2 : ℕ) ^ (n + 1) = 2 ^ n + 2 ^ n := by ring
      have hlt2 : a + 2 ^ n < 2 ^ j := by omega
      have hlt3 : a < 2 ^ j := by omega
      rw [Nat.testBit_lt_two_pow hlt2, Nat.testBit_lt_two_pow hlt3]
      simp

lemma lor_two_pow {a n : ℕ} (h : a < 2 ^ n) : a ||| 2 ^ n = a + 2 ^ n := by
  apply Nat.eq_of_testBit_eq
  intro j
  rw [Nat.testBit_lor]
  rcases eq_or_ne j n with rfl | hj
  · rw [Nat.testBit_two_pow_self, Nat.testBit_lt_two_pow h,
      Nat.add_comm, Nat.testBit_two_pow_add_eq, Nat.testBit_lt_two_pow h]
    simp
  · rw [Nat.testBit_two_pow_of_ne (Ne.symm hj)]
    rcases lt_or_gt_of_ne hj with hlt | hgt
    · rw [Nat.add_comm, Nat.testBit_two_pow_add_gt hlt]
      simp
    · have hle : 2 ^ (n + 1) ≤ 2 ^ j := Nat.pow_le_pow_right (by norm_num) hgt
      have hsum : (2 : ℕ) ^ (n + 1) = 2 ^ n + 2 ^ n := by ring
      have hlt2 : a + 2 ^ n < 2 ^ j := by omega
      have hlt3 : a < 2 ^ j := by omega
      rw [Nat.testBit_lt_two_pow hlt2, Nat.testBit_lt_two_pow hlt3]
      simp

/-- The reversed-increment while loop sends the reversal of i to the reversal
of i + 1 (wrapping at 2 ^ n). -/
lemma revIncAux_bitRev : ∀ n, ∀ i, i < 2 ^ n →
    revIncAux (bitRev n i) (2 ^ n / 2) = bitRev n ((i + 1) % 2 ^ n) := by
  intro n
  induction n with
  | zero =>
    intro i hi
    interval_cases i
    rw [revIncAux]
    simp [bitRev]
  | succ n ih =>
    intro i hi
    have hpow : (2 : ℕ) ^ (n + 1) = 2 * 2 ^ n := by ring
    have hhalf : 2 ^ (n + 1) / 2 = 2 ^ n := by omega
    have ha : bitRev n (i / 2) < 2 ^ n := bitRev_lt n _
    have hstep : bitRev (n + 1) i = bitRev n (i / 2) + i % 2 * 2 ^ n := by simp [bitRev]
    rw [hhalf, hstep]
    rcases Nat.mod_two_eq_zero_or_one i with he | ho
    · rw [he]
      simp only [Nat.zero_mul, Nat.add_zero]
      rw [revIncAux]
      rw [dif_neg (by simp [land_two_pow_of_lt ha])]
      rw [lor_two_pow ha]
      have hi1 : i + 1 < 2 ^ (n + 1) := by omega
      have hodd : i + 1 = 2 * (i / 2) + 1 := by omega
      rw [Nat.mod_eq_of_lt hi1, hodd, bitRev_two_mul_add_one]
    · rw [ho, one_mul]
      rw [revIncAux]
      rw [dif_pos (by rw [add_two_pow_land ha]; positivity)]
      rw [add_two_pow_ldiff ha]
      have h2 : i / 2 < 2 ^ n := by omega
      rw [ih (i / 2) h2]
      have hq : i + 1 = 2 * (i / 2 + 1) := by omega
      rw [hq, hpow, Nat.mul_mod_mul_left, bitRev_two_mul]

/-- One bit-reversed increment of the running counter of rearrange. -/
lemma revInc_bitRev {n : ℕ} (i : ℕ) (hi : i < 2 ^ n) :
    revInc (2 ^ n) (bitRev n i) = bitRev n ((i + 1) % 2 ^ n) := by
  unfold revInc
  exact revIncAux_bitRev n i hi

/-! The rearrange pass realises the bit-reversal permutation. -/

lemma rearrangeLoop_ge {N i j : ℕ} (h : N ≤ i) (d : ℕ → ℂ) : rearrangeLoop N i j d = d := by
  rw [rearrangeLoop, dif_neg (by omega)]

lemma rearrangeLoop_step {N i j : ℕ} (h : i < N) (d : ℕ → ℂ) :
    rearrangeLoop N i j d
      = rearrangeLoop N (i + 1) (revInc N j)
          (if j > i then Function.update (Function.update d i (d j)) j (d i) else d) := by
  rw [rearrangeLoop, dif_pos h]

/-- Invariant of the rearrange loop: starting at iteration i with the counter
holding the reversal of i, the remaining iterations swap exactly the pairs
whose smaller endpoint is at least i. -/
lemma rearrangeLoop_spec (n : ℕ) : ∀ m i d, i + m = 2 ^ n → ∀ x,
    rearrangeLoop (2 ^ n) i (bitRev n i) d x
      = if x < 2 ^ n ∧ i ≤ x ∧ i ≤ bitRev n x then d (bitRev n x) else d x := by
  intro m
  induction m with
  | zero =>
    intro i d hi x
    rw [rearrangeLoop_ge (by omega)]
    rw [if_neg]
    rintro ⟨hx, hix, -⟩
    omega
  | succ m ih =>
    intro i d hi x
    have hiN : i < 2 ^ n := by omega
    have hriN : bitRev n i < 2 ^ n := bitRev_lt n i
    have hrxN : bitRev n x < 2 ^ n := bitRev_lt n x
    have hinvi : bitRev n (bitRev n i) = i := bitRev_bitRev n i hiN
    rw [rearrangeLoop_step hiN, revInc_bitRev i hiN, bitRev_mod, ih (i + 1) _ (by omega) x]
    set D : ℕ → ℂ :=
      if bitRev n i > i then
        Function.update (Function.update d i (d (bitRev n i))) (bitRev n i) (d i)
      else d with hD
    have hDne : ∀ y, y ≠ i → y ≠ bitRev n i → D y = d y := by
      intro y h1 h2
      rw [hD]
      split_ifs with hsw
      · rw [Function.update_apply, Function.update_apply, if_neg h2, if_neg h1]
      · rfl
    have hDi : i ≤ bitRev n i → D i = d (bitRev n i) := by
      intro hle
      rw [hD]
      split_ifs with hsw
      · rw [Function.update_apply, Function.update_apply, if_neg (by omega), if_pos rfl]
      · have heq : bitRev n i = i := by omega
        rw [heq]
    have hDri : i ≤ bitRev n i → D (bitRev n i) = d i := by
      intro hle
      rw [hD]
      split_ifs with hsw
      · rw [Function.update_apply, if_pos rfl]
      · have heq : bitRev n i = i := by omega
        rw [heq]
    have hDno : bitRev n i < i → D = d := by
      intro hlt
      rw [hD, if_neg (by omega)]
    by_cases hxN : x < 2 ^ n
    case neg =>
      rw [if_neg (by rintro ⟨h1, -, -⟩; exact hxN h1),
        if_neg (by rintro ⟨h1, -, -⟩; exact hxN h1)]
      exact hDne x (by omega) (by omega)
    case pos =>
      have hinv : bitRev n (bitRev n x) = x := bitRev_bitRev n x hxN
      by_cases hrhs : i ≤ x ∧ i ≤ bitRev n x
      · by_cases hxi : x = i
        · subst hxi
          rw [if_neg (by omega), if_pos ⟨hxN, hrhs.1, hrhs.2⟩]
          exact hDi hrhs.2
        · have hx1 : i + 1 ≤ x := by omega
          by_cases hmir : bitRev n x = i
          · have hxri : bitRev n i = x := by rw [← hmir, hinv]
            rw [if_neg (by rintro ⟨-, -, h3⟩; rw [hmir] at h3; omega)]
            rw [if_pos ⟨hxN, hrhs.1, hrhs.2⟩, hmir, ← hxri]
            exact hDri (by omega)
          · have hr1 : i + 1 ≤ bitRev n x := by omega
            rw [if_pos ⟨hxN, hx1, hr1⟩, if_pos ⟨hxN, hrhs.1, hrhs.2⟩]
            exact hDne _ hmir (fun hc => hxi (bitRev_inj hxN hiN hc))
      · rw [if_neg (by rintro ⟨-, h2, h3⟩; exact hrhs ⟨by omega, by omega⟩)]
        rw [if_neg (by rintro ⟨-, h2, h3⟩; exact hrhs ⟨h2, h3⟩)]
        by_cases hxi : x = i
        · subst hxi
          have hlt : bitRev n x < x := by
            rcases Nat.lt_or_ge (bitRev n x) x with h | h
            · exact h
            · exact absurd ⟨le_refl x, h⟩ hrhs
          rw [hDno hlt]
        · by_cases hxri : x = bitRev n i
          · subst hxri
            have hlt : bitRev n i < i := by
              rcases Nat.lt_or_ge (bitRev n i) i with h | h
              · exact h
              · exact absurd ⟨h, le_of_eq hinvi.symm⟩ hrhs
            rw [hDno hlt]
          · exact hDne x hxi hxri

/-- Below its size, rearrange places at index x the input value at the
bit-reversed index. -/
lemma rearrange_spec {n x : ℕ} (d : ℕ → ℂ) (hx : x < 2 ^ n) :
    rearrange (2 ^ n) d x = d (bitRev n x) := by
  have h := rearrangeLoop_spec n (2 ^ n) 0 d (by omega) x
  rw [bitRev_zero] at h
  rw [rearrange, h, if_pos ⟨hx, Nat.zero_le _, Nat.zero_le _⟩]

lemma rearrange_ge {n x : ℕ} (d : ℕ → ℂ) (hx : 2 ^ n ≤ x) :
    rearrange (2 ^ n) d x = d x := by
  have h := rearrangeLoop_spec n (2 ^ n) 0 d (by omega) x
  rw [bitRev_zero] at h
  rw [rearrange, h, if_neg (by rintro ⟨h1, -, -⟩; omega)]

/-! Pointwise characterisation of the three nested loops of calculate. -/

lemma innerLoop_ge {N step : ℕ} {fk : ℂ} {i : ℕ} (h : N ≤ i) (d : ℕ → ℂ) :
    innerLoop N step fk i d = d := by
  rw [innerLoop, dif_neg (by omega)]

lemma innerLoop_step {N step : ℕ} {fk : ℂ} {i : ℕ} (h : i < N) (hs : 0 < step) (d : ℕ → ℂ) :
    innerLoop N step fk i d
      = innerLoop N step fk (i + 2 * step)
          (Function.update (Function.update d (i + step) (d i - fk * d (i + step))) i
            (d i + fk * d (i + step))) := by
  rw [innerLoop, dif_pos ⟨h, hs⟩]

section
open scoped Classical

/-- The innermost while loop writes the two butterfly outputs at every pair of
slots it visits (offsets congruent to its start modulo the jump) and leaves
every other slot unchanged. -/
lemma innerLoop_spec {N step : ℕ} (hs : 0 < step) (fk : ℂ) :
    ∀ i0 d x, innerLoop N step fk i0 d x
      = if (∃ g, x = i0 + g * (2 * step)) ∧ x < N then d x + fk * d (x + step)
        else if (∃ g, x = i0 + step + g * (2 * step)) ∧ x < N + step then
          d (x - step) - fk * d x
        else d x := by
  have hmain : ∀ m i0, N - i0 ≤ m → ∀ d x, innerLoop N step fk i0 d x
      = if (∃ g, x = i0 + g * (2 * step)) ∧ x < N then d x + fk * d (x + step)
        else if (∃ g, x = i0 + step + g * (2 * step)) ∧ x < N + step then
          d (x - step) - fk * d x
        else d x := by
    intro m
    induction m with
    | zero =>
      intro i0 hm d x
      rw [innerLoop_ge (by omega)]
      rw [if_neg (by rintro ⟨⟨g, rfl⟩, hlt⟩; omega),
        if_neg (by rintro ⟨⟨g, rfl⟩, hlt⟩; omega)]
    | succ m ih =>
      intro i0 hm d x
      rcases Nat.lt_or_ge i0 N with hi0 | hi0
      case inr =>
        rw [innerLoop_ge hi0]
        rw [if_neg (by rintro ⟨⟨g, rfl⟩, hlt⟩; omega),
          if_neg (by rintro ⟨⟨g, rfl⟩, hlt⟩; omega)]
      case inl =>
        rw [innerLoop_step hi0 hs]
        set D : ℕ → ℂ :=
          Function.update (Function.update d (i0 + step) (d i0 - fk * d (i0 + step))) i0
            (d i0 + fk * d (i0 + step)) with hDdef
        have hD0 : D i0 = d i0 + fk * d (i0 + step) := by
          rw [hDdef, Function.update_same]
        have hD1 : D (i0 + step) = d i0 - fk * d (i0 + step) := by
          rw [hDdef, Function.update_noteq (by omega), Function.update_same]
        have hDne : ∀ y, y ≠ i0 → y ≠ i0 + step → D y = d y := by
          intro y h1 h2
          rw [hDdef, Function.update_noteq h1, Function.update_noteq h2]
        rw [ih (i0 + 2 * step) (by omega) D x]
        by_cases hc1 : (∃ g, x = i0 + g * (2 * step)) ∧ x < N
        · obtain ⟨⟨g, rfl⟩, hxN⟩ := hc1
          cases g with
          | zero =>
            simp only [Nat.zero_mul, Nat.add_zero]
            rw [if_neg (by rintro ⟨⟨g, hg⟩, -⟩; omega),
              if_neg (by rintro ⟨⟨g, hg⟩, -⟩; omega),
              if_pos ⟨⟨0, by ring⟩, by omega⟩]
            exact hD0
          | succ g =>
            have hx' : i0 + (g + 1) * (2 * step) = i0 + 2 * step + g * (2 * step) := by ring
            rw [if_pos ⟨⟨g, hx'⟩, by omega⟩, if_pos ⟨⟨g + 1, rfl⟩, by omega⟩]
            have e1 : i0 + (g + 1) * (2 * step) ≠ i0 := by
              have : 0 < (g + 1) * (2 * step) := by positivity
              omega
            have e2 : i0 + (g + 1) * (2 * step) ≠ i0 + step := by
              have h2 : 2 * step ≤ (g + 1) * (2 * step) :=
                Nat.le_mul_of_pos_left _ (by omega)
              omega
            have e3 : i0 + (g + 1) * (2 * step) + step ≠ i0 := by omega
            have e4 : i0 + (g + 1) * (2 * step) + step ≠ i0 + step := by
              have : 0 < (g + 1) * (2 * step) := by positivity
              omega
            rw [hDne _ e1 e2, hDne _ e3 e4]
        · by_cases hc2 : (∃ g, x = i0 + step + g * (2 * step)) ∧ x < N + step
          · obtain ⟨⟨g, rfl⟩, hxNs⟩ := hc2
            cases g with
            | zero =>
              simp only [Nat.zero_mul, Nat.add_zero] at hc1 hxNs ⊢
              rw [if_neg (by rintro ⟨⟨g, hg⟩, -⟩; omega),
                if_neg (by rintro ⟨⟨g, hg⟩, -⟩; omega),
                if_neg hc1,
                if_pos ⟨⟨0, by ring⟩, hxNs⟩]
              have e0 : i0 + step - step = i0 := by omega
              rw [e0]
              exact hD1
            | succ g =>
              have h2 : 2 * step ≤ (g + 1) * (2 * step) :=
                Nat.le_mul_of_pos_left _ (by omega)
              have hx' : i0 + step + (g + 1) * (2 * step)
                  = i0 + 2 * step + step + g * (2 * step) := by ring
              rw [if_neg (by
                  rintro ⟨⟨g2, hg2⟩, hXN⟩
                  exact hc1 ⟨⟨g2 + 1, by rw [hg2]; ring⟩, hXN⟩),
                if_pos ⟨⟨g, hx'⟩, by omega⟩,
                if_neg hc1,
                if_pos ⟨⟨g + 1, rfl⟩, hxNs⟩]
              have e1 : i0 + step + (g + 1) * (2 * step) - step
                  = i0 + (g + 1) * (2 * step) := by omega
              have e2 : i0 + (g + 1) * (2 * step) ≠ i0 := by omega
              have e3 : i0 + (g + 1) * (2 * step) ≠ i0 + step := by omega
              have e4 : i0 + step + (g + 1) * (2 * step) ≠ i0 := by omega
              have e5 : i0 + step + (g + 1) * (2 * step) ≠ i0 + step := by omega
              rw [e1, hDne _ e2 e3, hDne _ e4 e5]
          · rw [if_neg (by
                rintro ⟨⟨g, hg⟩, hxN⟩
                exact hc1 ⟨⟨g + 1, by rw [hg]; ring⟩, hxN⟩),
              if_neg (by
                rintro ⟨⟨g, hg⟩, hxNs⟩
                exact hc2 ⟨⟨g + 1, by rw [hg]; ring⟩, hxNs⟩),
              if_neg hc1, if_neg hc2]
            have e1 : x ≠ i0 := by
              rintro rfl
              exact hc1 ⟨⟨0, by ring⟩, hi0⟩
            have e2 : x ≠ i0 + step := by
              rintro rfl
              exact hc2 ⟨⟨0, by ring⟩, by omega⟩
            exact hDne x e1 e2
  intro i0 d x
  exact hmain (N - i0) i0 (le_refl _) d x

end

/-- Congruence between stride membership and residues modulo the jump. -/
lemma exists_stride_iff {J c x : ℕ} (hJ : 0 < J) (hc : c < J) :
    (∃ g, x = c + g * J) ↔ x % J = c := by
  constructor
  · rintro ⟨g, rfl⟩
    rw [Nat.add_mul_mod_self_right]
    exact Nat.mod_eq_of_lt hc
  · intro h
    refine ⟨x / J, ?_⟩
    rw [← h, mul_comm]
    exact (Nat.mod_add_div x J).symm

/-- The innermost while loop, phrased with residues. -/
lemma innerLoop_spec_mod {N step : ℕ} (hs : 0 < step) (fk : ℂ) (c : ℕ) (hc : c < step)
    (d : ℕ → ℂ) (x : ℕ) :
    innerLoop N step fk c d x
      = if x % (2 * step) = c ∧ x < N then d x + fk * d (x + step)
        else if x % (2 * step) = c + step ∧ x < N + step then d (x - step) - fk * d x
        else d x := by
  rw [innerLoop_spec hs fk c d x]
  have h1 : (∃ g, x = c + g * (2 * step)) ↔ x % (2 * step) = c :=
    exists_stride_iff (by omega) (by omega)
  have h2 : (∃ g, x = c + step + g * (2 * step)) ↔ x % (2 * step) = c + step :=
    exists_stride_iff (by omega) (by omega)
  simp only [h1, h2]

lemma groupLoop_ge {N step : ℕ} {f : ℕ → ℂ} {c k : ℕ} (h : step ≤ c) (d : ℕ → ℂ) :
    groupLoop N step f c k d = d := by
  rw [groupLoop, dif_neg (by omega)]

lemma groupLoop_step {N step : ℕ} {f : ℕ → ℂ} {c k : ℕ} (h : c < step) (d : ℕ → ℂ) :
    groupLoop N step f c k d
      = groupLoop N step f (c + 1) (k + 1) (innerLoop N step (f k) c d) := by
  rw [groupLoop, dif_pos h]

/-- When the jump divides the size, a slot with a high residue that the inner
loop may write lies strictly below the size. -/
lemma high_slot_lt {N step x : ℕ} (hs : 0 < step) (hdvd : 2 * step ∣ N)
    (hr : step ≤ x % (2 * step)) (hxs : x < N + step) : x < N := by
  obtain ⟨m, hm⟩ := hdvd
  have hq := Nat.div_add_mod x (2 * step)
  have hrlt : x % (2 * step) < 2 * step := Nat.mod_lt _ (by omega)
  set q := x / (2 * step) with hqdef
  set r := x % (2 * step) with hrdef
  have h3 : 2 * step * q = q * (2 * step) := by ring
  have h4 : m * (2 * step) = N := by rw [hm]; ring
  by_cases hqm : q < m
  · have h1 : (q + 1) * (2 * step) ≤ m * (2 * step) := Nat.mul_le_mul_right _ hqm
    have h2 : (q + 1) * (2 * step) = q * (2 * step) + 2 * step := by ring
    omega
  · have h1 : m ≤ q := by omega
    have h2 : m * (2 * step) ≤ q * (2 * step) := Nat.mul_le_mul_right _ h1
    omega

lemma mod_add_step {step x : ℕ} (hs : 0 < step) (hr : x % (2 * step) < step) :
    (x + step) % (2 * step) = x % (2 * step) + step := by
  conv_lhs => rw [← Nat.div_add_mod x (2 * step)]
  rw [Nat.add_assoc, Nat.mul_add_mod]
  exact Nat.mod_eq_of_lt (by omega)

lemma mod_sub_step {step x : ℕ} (hs : 0 < step) (hr : step ≤ x % (2 * step)) :
    (x - step) % (2 * step) = x % (2 * step) - step := by
  have h := Nat.div_add_mod x (2 * step)
  have hrlt : x % (2 * step) < 2 * step := Nat.mod_lt _ (by omega)
  have hx : x - step = 2 * step * (x / (2 * step)) + (x % (2 * step) - step) := by omega
  rw [hx, Nat.mul_add_mod]
  exact Nat.mod_eq_of_lt (by omega)

/-- The for loop over groups: starting from group c, every slot of a not yet
processed residue receives its butterfly output with the twiddle indexed by its
residue, and every other slot is untouched. -/
lemma groupLoop_spec {N step : ℕ} (hs : 0 < step) (hdvd : 2 * step ∣ N) (f : ℕ → ℂ) :
    ∀ m c k d, step ≤ c + m → c ≤ step → ∀ x,
      groupLoop N step f c k d x
        = if x < N ∧ c ≤ x % (2 * step) ∧ x % (2 * step) < step then
            d x + f (k + (x % (2 * step) - c)) * d (x + step)
          else if x < N ∧ step + c ≤ x % (2 * step) then
            d (x - step) - f (k + (x % (2 * step) - (step + c))) * d x
          else d x := by
  intro m
  induction m with
  | zero =>
    intro c k d hm hc x
    rw [groupLoop_ge (by omega)]
    have hrlt : x % (2 * step) < 2 * step := Nat.mod_lt _ (by omega)
    rw [if_neg (by rintro ⟨-, h2, h3⟩; omega), if_neg (by rintro ⟨-, h2⟩; omega)]
  | succ m ih =>
    intro c k d hm hc x
    rcases Nat.lt_or_ge c step with hcs | hcs
    case inr =>
      rw [groupLoop_ge hcs]
      have hrlt : x % (2 * step) < 2 * step := Nat.mod_lt _ (by omega)
      rw [if_neg (by rintro ⟨-, h2, h3⟩; omega), if_neg (by rintro ⟨-, h2⟩; omega)]
    case inl =>
      rw [groupLoop_step hcs, ih (c + 1) (k + 1) _ (by omega) (by omega) x]
      have hrlt : x % (2 * step) < 2 * step := Nat.mod_lt _ (by omega)
      by_cases hxN : x < N
      case neg =>
        rw [if_neg (by rintro ⟨h1, -⟩; omega), if_neg (by rintro ⟨h1, -⟩; omega),
          if_neg (by rintro ⟨h1, -⟩; omega), if_neg (by rintro ⟨h1, -⟩; omega)]
        rw [innerLoop_spec_mod hs (f k) c hcs d x,
          if_neg (by rintro ⟨-, h⟩; omega),
          if_neg (by rintro ⟨h1, h2⟩; exact hxN (high_slot_lt hs hdvd (by omega) h2))]
      case pos =>
        rcases Nat.lt_trichotomy (x % (2 * step)) c with hr1 | hr2 | hr3
        · have hIx : innerLoop N step (f k) c d x = d x := by
            rw [innerLoop_spec_mod hs (f k) c hcs d x,
              if_neg (by rintro ⟨h, -⟩; omega), if_neg (by rintro ⟨h, -⟩; omega)]
          rw [if_neg (by rintro ⟨-, h2, -⟩; omega), if_neg (by rintro ⟨-, h2⟩; omega),
            if_neg (by rintro ⟨-, h2, -⟩; omega), if_neg (by rintro ⟨-, h2⟩; omega), hIx]
        · rw [if_neg (by rintro ⟨-, h2, -⟩; omega), if_neg (by rintro ⟨-, h2⟩; omega),
            if_pos ⟨hxN, by omega, by omega⟩]
          have hIx : innerLoop N step (f k) c d x = d x + f k * d (x + step) := by
            rw [innerLoop_spec_mod hs (f k) c hcs d x, if_pos ⟨hr2, hxN⟩]
          rw [hIx]
          have e : k + (x % (2 * step) - c) = k := by omega
          rw [e]
        · rcases Nat.lt_trichotomy (x % (2 * step)) (c + step) with hr4 | hr5 | hr6
          · rcases Nat.lt_or_ge (x % (2 * step)) step with hra | hrb
            · have hmodp : (x + step) % (2 * step) = x % (2 * step) + step :=
                mod_add_step hs hra
              have hIx : innerLoop N step (f k) c d x = d x := by
                rw [innerLoop_spec_mod hs (f k) c hcs d x,
                  if_neg (by rintro ⟨h, -⟩; omega), if_neg (by rintro ⟨h, -⟩; omega)]
              have hIxs : innerLoop N step (f k) c d (x + step) = d (x + step) := by
                rw [innerLoop_spec_mod hs (f k) c hcs d (x + step),
                  if_neg (by rintro ⟨h, -⟩; omega), if_neg (by rintro ⟨h, -⟩; omega)]
              rw [if_pos ⟨hxN, by omega, hra⟩, if_pos ⟨hxN, by omega, hra⟩, hIx, hIxs]
              have e : k + 1 + (x % (2 * step) - (c + 1)) = k + (x % (2 * step) - c) := by
                omega
              rw [e]
            · have hIx : innerLoop N step (f k) c d x = d x := by
                rw [innerLoop_spec_mod hs (f k) c hcs d x,
                  if_neg (by rintro ⟨h, -⟩; omega), if_neg (by rintro ⟨h, -⟩; omega)]
              rw [if_neg (by rintro ⟨-, -, h3⟩; omega), if_neg (by rintro ⟨-, h2⟩; omega),
                if_neg (by rintro ⟨-, -, h3⟩; omega), if_neg (by rintro ⟨-, h2⟩; omega), hIx]
          · have hIx : innerLoop N step (f k) c d x = d (x - step) - f k * d x := by
              rw [innerLoop_spec_mod hs (f k) c hcs d x,
                if_neg (by rintro ⟨h, -⟩; omega), if_pos ⟨hr5, by omega⟩]
            rw [if_neg (by rintro ⟨-, -, h3⟩; omega), if_neg (by rintro ⟨-, h2⟩; omega),
              if_neg (by rintro ⟨-, -, h3⟩; omega), if_pos ⟨hxN, by omega⟩, hIx]
            have e : k + (x % (2 * step) - (step + c)) = k := by omega
            rw [e]
          · have hmodm : (x - step) % (2 * step) = x % (2 * step) - step :=
              mod_sub_step hs (by omega)
            have hIx : innerLoop N step (f k) c d x = d x := by
              rw [innerLoop_spec_mod hs (f k) c hcs d x,
                if_neg (by rintro ⟨h, -⟩; omega), if_neg (by rintro ⟨h, -⟩; omega)]
            have hIxm : innerLoop N step (f k) c d (x - step) = d (x - step) := by
              rw [innerLoop_spec_mod hs (f k) c hcs d (x - step),
                if_neg (by rintro ⟨h, -⟩; omega), if_neg (by rintro ⟨h, -⟩; omega)]
            rw [if_neg (by rintro ⟨-, -, h3⟩; omega), if_pos ⟨hxN, by omega⟩,
              if_neg (by rintro ⟨-, -, h3⟩; omega), if_pos ⟨hxN, by omega⟩, hIx, hIxm]
            have e : k + 1 + (x % (2 * step) - (step + (c + 1)))
                = k + (x % (2 * step) - (step + c)) := by omega
            rw [e]

/-- One full pass of the group loop is the whole-stage butterfly map. -/
lemma groupLoop_stageMap {N step : ℕ} (hs : 0 < step) (hdvd : 2 * step ∣ N)
    (f : ℕ → ℂ) (k : ℕ) (d : ℕ → ℂ) :
    groupLoop N step f 0 k d = stageMap N step f k d := by
  funext x
  rw [groupLoop_spec hs hdvd f step 0 k d (by omega) (by omega) x]
  unfold stageMap
  simp only [Nat.add_zero, Nat.sub_zero, Nat.zero_le, true_and]
  have hrlt : x % (2 * step) < 2 * step := Nat.mod_lt _ (by omega)
  split_ifs with h1 h2 h3 <;> first | rfl | omega

/-! The butterfly stages assemble the DFT: splitting and merging partial sums. -/

lemma sum_range_two_mul (m : ℕ) (g : ℕ → ℂ) :
    ∑ u ∈ Finset.range (2 * m), g u
      = ∑ v ∈ Finset.range m, g (2 * v) + ∑ v ∈ Finset.range m, g (2 * v + 1) := by
  induction m with
  | zero => simp
  | succ m ih =>
    have h2 : 2 * (m + 1) = 2 * m + 1 + 1 := by ring
    rw [h2, Finset.sum_range_succ, Finset.sum_range_succ, Finset.sum_range_succ,
      Finset.sum_range_succ, ih]
    ring

lemma eit_as_pow (sign : ℝ) (s : ℕ) (a b : ℕ) :
    eit (sign * (2 * Real.pi * ((a : ℝ) * (b : ℝ))) / 2 ^ s)
      = eit (sign * (2 * Real.pi) / 2 ^ s) ^ (a * b) := by
  rw [← eit_nat_mul]
  congr 1
  push_cast
  ring

lemma eit_as_pow_one (sign : ℝ) (s : ℕ) (a : ℕ) :
    eit (sign * (2 * Real.pi * (a : ℝ)) / 2 ^ s)
      = eit (sign * (2 * Real.pi) / 2 ^ s) ^ a := by
  rw [← eit_nat_mul]
  congr 1
  push_cast
  ring

lemma stageLoop_ge {N : ℕ} {f : ℕ → ℂ} {step k : ℕ} (h : N ≤ step) (d : ℕ → ℂ) :
    stageLoop N f step k d = d := by
  rw [stageLoop, dif_neg (by omega)]

lemma stageLoop_step {N : ℕ} {f : ℕ → ℂ} {step k : ℕ} (h1 : 0 < step) (h2 : step < N)
    (d : ℕ → ℂ) :
    stageLoop N f step k d
      = stageLoop N f (2 * step) (k + step) (groupLoop N step f 0 k d) := by
  rw [stageLoop, dif_pos ⟨h1, h2⟩]

/-- The first butterfly identity: the lower half of a merged block. -/
lemma subDFT_succ (op : Operation) (n : ℕ) (x : ℕ → ℂ) {s : ℕ} (hs1 : s + 1 ≤ n) (b t : ℕ) :
    subDFT (opSign op) n x (s + 1) b t
      = subDFT (opSign op) n x s (2 * b) t
        + eit (opSign op * (2 * Real.pi * t) / 2 ^ (s + 1)) * subDFT (opSign op) n x s (2 * b + 1) t := by
  have hns : n - s = n - (s + 1) + 1 := by omega
  unfold subDFT
  rw [show (2 : ℕ) ^ (s + 1) = 2 * 2 ^ s from by ring, sum_range_two_mul]
  simp only [eit_as_pow, eit_as_pow_one]
  set W : ℂ := eit (opSign op * (2 * Real.pi) / 2 ^ (s + 1)) with hWdef
  have hW2 : W ^ 2 = eit (opSign op * (2 * Real.pi) / 2 ^ s) := by
    rw [hWdef, ← eit_nat_mul]
    congr 1
    have h2s : ((2 : ℝ)) ^ s ≠ 0 := by positivity
    push_cast
    rw [pow_succ]
    field_simp
    ring
  rw [← hW2, Finset.mul_sum]
  congr 1
  · apply Finset.sum_congr rfl
    intro v hv
    have hidx : 2 * v * 2 ^ (n - (s + 1)) + bitRev (n - (s + 1)) b
        = v * 2 ^ (n - s) + bitRev (n - s) (2 * b) := by
      rw [hns, pow_succ, bitRev_two_mul]
      ring
    rw [hidx, ← pow_mul]
    congr 2
    ring
  · apply Finset.sum_congr rfl
    intro v hv
    have hidx : (2 * v + 1) * 2 ^ (n - (s + 1)) + bitRev (n - (s + 1)) b
        = v * 2 ^ (n - s) + bitRev (n - s) (2 * b + 1) := by
      rw [hns, pow_succ, bitRev_two_mul_add_one]
      ring
    rw [hidx, ← pow_mul, show t * (2 * v + 1) = t + 2 * (t * v) from by ring, pow_add]
    ring

/-- The second butterfly identity: the upper half of a merged block. -/
lemma subDFT_succ_shift (op : Operation) (n : ℕ) (x : ℕ → ℂ) {s : ℕ} (hs1 : s + 1 ≤ n)
    (b t : ℕ) :
    subDFT (opSign op) n x (s + 1) b (t + 2 ^ s)
      = subDFT (opSign op) n x s (2 * b) t
        - eit (opSign op * (2 * Real.pi * t) / 2 ^ (s + 1)) * subDFT (opSign op) n x s (2 * b + 1) t := by
  have hns : n - s = n - (s + 1) + 1 := by omega
  unfold subDFT
  rw [show (2 : ℕ) ^ (s + 1) = 2 * 2 ^ s from by ring, sum_range_two_mul]
  simp only [eit_as_pow, eit_as_pow_one]
  set W : ℂ := eit (opSign op * (2 * Real.pi) / 2 ^ (s + 1)) with hWdef
  have h2s : ((2 : ℝ)) ^ s ≠ 0 := by positivity
  have hW2 : W ^ 2 = eit (opSign op * (2 * Real.pi) / 2 ^ s) := by
    rw [hWdef, ← eit_nat_mul]
    congr 1
    push_cast
    rw [pow_succ]
    field_simp
    ring
  have hWfull : W ^ (2 ^ (s + 1)) = 1 := by
    rw [hWdef, ← eit_nat_mul]
    have h1 : ((2 ^ (s + 1) : ℕ) : ℝ) * (opSign op * (2 * Real.pi) / 2 ^ (s + 1))
        = opSign op * (2 * Real.pi * ((1 : ℕ) : ℝ)) := by
      have hne : ((2 : ℝ)) ^ (s + 1) ≠ 0 := by positivity
      push_cast
      field_simp
    rw [h1, eit_opSign_two_pi_nat]
  have hWhalf : W ^ (2 ^ s) = -1 := by
    rw [hWdef, ← eit_nat_mul]
    have h1 : ((2 ^ s : ℕ) : ℝ) * (opSign op * (2 * Real.pi) / 2 ^ (s + 1))
        = opSign op * Real.pi := by
      have hne : ((2 : ℝ)) ^ (s + 1) ≠ 0 := by positivity
      push_cast
      rw [pow_succ]
      field_simp
      ring
    rw [h1, eit_opSign_pi]
  rw [← hW2, Finset.mul_sum, sub_eq_add_neg, ← Finset.sum_neg_distrib]
  congr 1
  · apply Finset.sum_congr rfl
    intro v hv
    have hidx : 2 * v * 2 ^ (n - (s + 1)) + bitRev (n - (s + 1)) b
        = v * 2 ^ (n - s) + bitRev (n - s) (2 * b) := by
      rw [hns, pow_succ, bitRev_two_mul]
      ring
    rw [hidx, ← pow_mul,
      show (t + 2 ^ s) * (2 * v) = 2 * (t * v) + 2 ^ (s + 1) * v from by ring,
      pow_add, pow_mul W (2 ^ (s + 1)) v, hWfull, one_pow, mul_one]
  · apply Finset.sum_congr rfl
    intro v hv
    have hidx : (2 * v + 1) * 2 ^ (n - (s + 1)) + bitRev (n - (s + 1)) b
        = v * 2 ^ (n - s) + bitRev (n - s) (2 * b + 1) := by
      rw [hns, pow_succ, bitRev_two_mul_add_one]
      ring
    rw [hidx, ← pow_mul,
      show (t + 2 ^ s) * (2 * v + 1) = t + 2 * (t * v) + 2 ^ (s + 1) * v + 2 ^ s from by ring,
      pow_add, pow_add, pow_add, pow_mul W (2 ^ (s + 1)) v, hWfull, one_pow, mul_one, hWhalf]
    ring

/-! The factor table: length, stage layout and closed-form values. -/

lemma planLoop_ge (op : Operation) {N step : ℕ} (h : N ≤ step) : planLoop op N step = [] := by
  rw [planLoop, dif_neg (by omega)]

lemma planLoop_unfold (op : Operation) {N step : ℕ} (h1 : 0 < step) (h2 : step < N) :
    planLoop op N step = stageEntries op step ++ planLoop op N (2 * step) := by
  rw [planLoop, dif_pos ⟨h1, h2⟩]

lemma stageEntries_length (op : Operation) (step : ℕ) :
    (stageEntries op step).length = step := by
  simp [stageEntries]

lemma planLoop_length (op : Operation) (n : ℕ) :
    ∀ j a, a + j = n → (planLoop op (2 ^ n) (2 ^ a)).length = 2 ^ n - 2 ^ a := by
  intro j
  induction j with
  | zero =>
    intro a ha
    have han : a = n := by omega
    subst han
    rw [planLoop_ge op (le_refl _), Nat.sub_self]
    rfl
  | succ j ih =>
    intro a ha
    have hlt : (2 : ℕ) ^ a < 2 ^ n := Nat.pow_lt_pow_right (by norm_num) (by omega)
    rw [planLoop_unfold op (by positivity) hlt, List.length_append,
      show 2 * 2 ^ a = 2 ^ (a + 1) from by rw [pow_succ]; ring,
      ih (a + 1) (by omega), stageEntries_length]
    have h2 : (2 : ℕ) ^ (a + 1) ≤ 2 ^ n := Nat.pow_le_pow_right (by norm_num) (by omega)
    have h3 : (2 : ℕ) ^ (a + 1) = 2 * 2 ^ a := by rw [pow_succ]; ring
    omega

lemma planFactorsList_length (op : Operation) (n : ℕ) :
    (planFactorsList op (2 ^ n)).length = 2 ^ n - 1 := by
  unfold planFactorsList
  simpa using planLoop_length op n n 0 (by omega)

lemma stageEntries_getD (op : Operation) {step t : ℕ} (ht : t < step) :
    (stageEntries op step).getD t 0 = stageFactor op step t := by
  unfold stageEntries
  rw [List.getD_eq_getElem?_getD, List.getElem?_map, List.getElem?_range ht]
  rfl

lemma planLoop_getD (op : Operation) (n : ℕ) :
    ∀ j a s t, a + j = n → a ≤ s → s < n → t < 2 ^ s →
      (planLoop op (2 ^ n) (2 ^ a)).getD (2 ^ s - 2 ^ a + t) 0 = stageFactor op (2 ^ s) t := by
  intro j
  induction j with
  | zero => intro a s t ha has hsn ht; omega
  | succ j ih =>
    intro a s t ha has hsn ht
    have hlt : (2 : ℕ) ^ a < 2 ^ n := Nat.pow_lt_pow_right (by norm_num) (by omega)
    rw [planLoop_unfold op (by positivity) hlt]
    rcases eq_or_lt_of_le has with heq | hgt
    · subst heq
      rw [Nat.sub_self, Nat.zero_add, List.getD_eq_getElem?_getD,
        List.getElem?_append_left (by rw [stageEntries_length]; omega),
        ← List.getD_eq_getElem?_getD]
      exact stageEntries_getD op ht
    · have hle : (2 : ℕ) ^ (a + 1) ≤ 2 ^ s := Nat.pow_le_pow_right (by norm_num) (by omega)
      have h3 : (2 : ℕ) ^ (a + 1) = 2 * 2 ^ a := by rw [pow_succ]; ring
      rw [List.getD_eq_getElem?_getD,
        List.getElem?_append_right (by rw [stageEntries_length]; omega),
        ← List.getD_eq_getElem?_getD, stageEntries_length,
        show 2 ^ s - 2 ^ a + t - 2 ^ a = 2 ^ s - 2 ^ (a + 1) + t from by omega,
        show 2 * 2 ^ a = 2 ^ (a + 1) from by rw [pow_succ]; ring]
      exact ih (a + 1) s t (by omega) (by omega) hsn ht

/-- One plus the stage multiplier is the unit-circle point of the stage angle:
the half-angle-sine recurrence walks the roots of unity exactly. -/
lemma one_add_stageMultiplier (op : Operation) (step : ℕ) :
    (1 : ℂ) + stageMultiplier op step = eit (opSign op * (Real.pi / step)) := by
  set theta : ℝ := Real.pi / step with htheta
  have hc : Real.cos theta = 1 - 2 * Real.sin (theta / 2) ^ 2 := by
    have h1 := Real.cos_two_mul (theta / 2)
    have h2 := Real.sin_sq_add_cos_sq (theta / 2)
    have h3 : 2 * (theta / 2) = theta := by ring
    rw [h3] at h1
    nlinarith
  have hre : (stageMultiplier op step).re = -2 * Real.sin (theta / 2) * Real.sin (theta / 2) :=
    rfl
  have him : (stageMultiplier op step).im = opSign op * Real.sin theta := rfl
  rw [eit_eq_mk, Complex.ext_iff]
  constructor
  · rw [Complex.add_re, Complex.one_re, hre]
    rcases opSign_cases op with h | h <;> rw [h]
    · rw [one_mul, hc]
      ring
    · rw [show (-1 : ℝ) * theta = -theta from by ring, Real.cos_neg, hc]
      ring
  · rw [Complex.add_im, Complex.one_im, him]
    rcases opSign_cases op with h | h <;> rw [h]
    · rw [one_mul, one_mul]
      ring
    · rw [show (-1 : ℝ) * theta = -theta from by ring, Real.sin_neg]
      ring

/-- Closed form of the multiplicative factor recurrence. -/
lemma stageFactor_eq (op : Operation) (step : ℕ) (t : ℕ) :
    stageFactor op step t = eit (opSign op * (Real.pi / step) * t) := by
  induction t with
  | zero =>
    simp [stageFactor, eit_zero]
  | succ t ih =>
    have hrec : stageFactor op step (t + 1)
        = (1 + stageMultiplier op step) * stageFactor op step t := by
      show stageMultiplier op step * stageFactor op step t + stageFactor op step t = _
      ring
    rw [hrec, one_add_stageMultiplier, ih, ← eit_add]
    congr 1
    push_cast
    ring

/-- The factor table of Plan::new holds exactly the stage roots of unity, read
through the flat stage layout. -/
lemma planF_factor (op : Operation) (n : ℕ) :
    ∀ s t, s + 1 ≤ n → t < 2 ^ s →
      planF op (2 ^ n) (2 ^ s - 1 + t)
        = eit (opSign op * (2 * Real.pi * t) / 2 ^ (s + 1)) := by
  intro s t hs ht
  unfold planF planFactorsList
  have h := planLoop_getD op n n 0 s t (by omega) (by omega) (by omega) ht
  simp only [pow_zero] at h
  rw [h, stageFactor_eq]
  congr 1
  have hne : ((2 : ℝ)) ^ s ≠ 0 := by positivity
  push_cast
  rw [pow_succ]
  field_simp
  ring

/-- Running the stage loop from stage s on data satisfying the partial-DFT
invariant produces the full DFT of the original data. -/
lemma stageLoop_dft (op : Operation) (n : ℕ) (f : ℕ → ℂ) (x0 : ℕ → ℂ)
    (hf : ∀ s t, s + 1 ≤ n → t < 2 ^ s →
      f (2 ^ s - 1 + t) = eit (opSign op * (2 * Real.pi * t) / 2 ^ (s + 1))) :
    ∀ j s d, s + j = n →
      (∀ b t, b < 2 ^ (n - s) → t < 2 ^ s →
        d (b * 2 ^ s + t) = subDFT (opSign op) n x0 s b t) →
      ∀ y, y < 2 ^ n →
        stageLoop (2 ^ n) f (2 ^ s) (2 ^ s - 1) d y = subDFT (opSign op) n x0 n 0 y := by
  intro j
  induction j with
  | zero =>
    intro s d hsn hinv y hy
    have hs : s = n := by omega
    subst hs
    rw [stageLoop_ge (le_refl _)]
    have h := hinv 0 y (by simp) (by omega)
    simpa using h
  | succ j ih =>
    intro s d hsn hinv y hy
    have hsn' : s < n := by omega
    have hpos : (0 : ℕ) < 2 ^ s := by positivity
    have hlt : (2 : ℕ) ^ s < 2 ^ n := Nat.pow_lt_pow_right (by norm_num) hsn'
    have hdvd : 2 * 2 ^ s ∣ 2 ^ n := by
      refine ⟨2 ^ (n - s - 1), ?_⟩
      rw [show 2 * 2 ^ s = 2 ^ (s + 1) from by rw [pow_succ]; ring, ← pow_add]
      congr 1
      omega
    rw [stageLoop_step hpos hlt, groupLoop_stageMap hpos hdvd,
      show 2 * 2 ^ s = 2 ^ (s + 1) from by rw [pow_succ]; ring,
      show 2 ^ s - 1 + 2 ^ s = 2 ^ (s + 1) - 1 from by
        have h1 : (1 : ℕ) ≤ 2 ^ s := Nat.one_le_two_pow
        have h2 : (2 : ℕ) ^ (s + 1) = 2 ^ s + 2 ^ s := by rw [pow_succ]; ring
        omega]
    apply ih (s + 1) _ (by omega) _ y hy
    intro b t hb ht
    have hb2 : 2 * b + 1 < 2 ^ (n - s) := by
      obtain ⟨w, hw⟩ : ∃ w, n - s = w + 1 := ⟨n - s - 1, by omega⟩
      have hww : n - (s + 1) = w := by omega
      rw [hww] at hb
      rw [hw]
      have h2 : (2 : ℕ) ^ (w + 1) = 2 * 2 ^ w := by rw [pow_succ]; ring
      omega
    have hyN : b * 2 ^ (s + 1) + t < 2 ^ n := by
      have h1 : (b + 1) * 2 ^ (s + 1) ≤ 2 ^ (n - (s + 1)) * 2 ^ (s + 1) :=
        Nat.mul_le_mul_right _ (by omega)
      have h2 : (2 : ℕ) ^ (n - (s + 1)) * 2 ^ (s + 1) = 2 ^ n := by
        rw [← pow_add]
        congr 1
        omega
      have h3 : (b + 1) * 2 ^ (s + 1) = b * 2 ^ (s + 1) + 2 ^ (s + 1) := by ring
      omega
    have hmod : (b * 2 ^ (s + 1) + t) % (2 * 2 ^ s) = t := by
      rw [show 2 * 2 ^ s = 2 ^ (s + 1) from by rw [pow_succ]; ring,
        Nat.add_comm, Nat.add_mul_mod_self_right]
      exact Nat.mod_eq_of_lt ht
    unfold stageMap
    rcases Nat.lt_or_ge t (2 ^ s) with htlo | hthi
    · rw [if_pos ⟨hyN, by rw [hmod]; exact htlo⟩, hmod]
      have hd1 : d (b * 2 ^ (s + 1) + t) = subDFT (opSign op) n x0 s (2 * b) t := by
        rw [show b * 2 ^ (s + 1) + t = 2 * b * 2 ^ s + t from by rw [pow_succ]; ring]
        exact hinv (2 * b) t (by omega) htlo
      have hd2 : d (b * 2 ^ (s + 1) + t + 2 ^ s)
          = subDFT (opSign op) n x0 s (2 * b + 1) t := by
        rw [show b * 2 ^ (s + 1) + t + 2 ^ s = (2 * b + 1) * 2 ^ s + t from by
          rw [pow_succ]; ring]
        exact hinv (2 * b + 1) t hb2 htlo
      rw [hd1, hd2, hf s t (by omega) htlo, subDFT_succ op n x0 (by omega) b t]
    · rw [if_neg (by rintro ⟨-, hcon⟩; rw [hmod] at hcon; omega), if_pos hyN, hmod]
      have htt : t - 2 ^ s < 2 ^ s := by
        have h2 : (2 : ℕ) ^ (s + 1) = 2 ^ s + 2 ^ s := by rw [pow_succ]; ring
        omega
      have hAB : b * 2 ^ (s + 1) = 2 * b * 2 ^ s := by rw [pow_succ]; ring
      have hd1 : d (b * 2 ^ (s + 1) + t - 2 ^ s)
          = subDFT (opSign op) n x0 s (2 * b) (t - 2 ^ s) := by
        rw [show b * 2 ^ (s + 1) + t - 2 ^ s = 2 * b * 2 ^ s + (t - 2 ^ s) from by omega]
        exact hinv (2 * b) (t - 2 ^ s) (by omega) htt
      have hd2 : d (b * 2 ^ (s + 1) + t)
          = subDFT (opSign op) n x0 s (2 * b + 1) (t - 2 ^ s) := by
        have hC : (2 * b + 1) * 2 ^ s = 2 * b * 2 ^ s + 2 ^ s := by ring
        rw [show b * 2 ^ (s + 1) + t = (2 * b + 1) * 2 ^ s + (t - 2 ^ s) from by omega]
        exact hinv (2 * b + 1) (t - 2 ^ s) hb2 htt
      rw [hd1, hd2, hf s (t - 2 ^ s) (by omega) htt]
      have hshift := subDFT_succ_shift op n x0 (show s + 1 ≤ n by omega) b (t - 2 ^ s)
      rw [show t - 2 ^ s + 2 ^ s = t from by omega] at hshift
      rw [hshift]

/-- The butterfly passes applied to bit-reversed data compute the DFT sum with
the angle sign of the operation: the central correctness lemma. -/
lemma calc_rearrange_dft (op : Operation) (n : ℕ) (d : ℕ → ℂ) (y : ℕ) (hy : y < 2 ^ n) :
    calculate (2 ^ n) (planF op (2 ^ n)) (rearrange (2 ^ n) d) y
      = dftSum (opSign op) (2 ^ n) d y := by
  have hfin : subDFT (opSign op) n d n 0 y = dftSum (opSign op) (2 ^ n) d y := by
    unfold subDFT dftSum
    apply Finset.sum_congr rfl
    intro u hu
    have hidx : u * 2 ^ (n - n) + bitRev (n - n) 0 = u := by
      rw [Nat.sub_self]
      simp [bitRev]
    rw [hidx]
    congr 1
    push_cast
    ring
  have hinv0 : ∀ b t, b < 2 ^ (n - 0) → t < 2 ^ 0 →
      (rearrange (2 ^ n) d) (b * 2 ^ 0 + t) = subDFT (opSign op) n d 0 b t := by
    intro b t hb ht
    have ht0 : t = 0 := by omega
    subst ht0
    have hb' : b < 2 ^ n := by simpa using hb
    rw [show b * 2 ^ 0 + 0 = b from by simp, rearrange_spec d hb']
    unfold subDFT
    rw [show Finset.range (2 ^ 0) = Finset.range 1 from rfl, Finset.sum_range_one]
    have hidx : 0 * 2 ^ (n - 0) + bitRev (n - 0) b = bitRev n b := by simp
    rw [hidx]
    have hang : opSign op * (2 * Real.pi * (((0 : ℕ) : ℝ) * ((0 : ℕ) : ℝ))) / 2 ^ 0 = 0 := by
      push_cast
      ring
    rw [hang, eit_zero, mul_one]
  have hmain := stageLoop_dft op n (planF op (2 ^ n)) d (planF_factor op n) n 0
    (rearrange (2 ^ n) d) (by omega) hinv0 y hy
  unfold calculate
  rw [← hfin]
  simpa using hmain

/-! Structural facts: transform shape, factor-table congruence, inversion. -/

lemma ctransform_eq (op : Operation) (N : ℕ) (f : ℕ → ℂ) (d : ℕ → ℂ) :
    ctransform op N f d
      = if op = Operation.Inverse then scale N (calculate N f (rearrange N d))
        else calculate N f (rearrange N d) := rfl

lemma stageEntries_congr {o1 o2 : Operation} (h : opSign o1 = opSign o2) (step : ℕ) :
    stageEntries o1 step = stageEntries o2 step := by
  unfold stageEntries
  have hfun : stageFactor o1 step = stageFactor o2 step := by
    funext t
    rw [stageFactor_eq, stageFactor_eq, h]
  rw [hfun]

lemma planLoop_congr {o1 o2 : Operation} (h : opSign o1 = opSign o2) (N : ℕ) :
    ∀ m step, N - step ≤ m → planLoop o1 N step = planLoop o2 N step := by
  intro m
  induction m with
  | zero =>
    intro step hm
    rw [planLoop_ge o1 (by omega), planLoop_ge o2 (by omega)]
  | succ m ih =>
    intro step hm
    by_cases hc : 0 < step ∧ step < N
    · rw [planLoop_unfold o1 hc.1 hc.2, planLoop_unfold o2 hc.1 hc.2,
        stageEntries_congr h, ih (2 * step) (by omega)]
    · rw [planLoop, dif_neg hc, planLoop, dif_neg hc]

lemma planF_backward_inverse (N : ℕ) :
    planF Operation.Inverse N = planF Operation.Backward N := by
  unfold planF planFactorsList
  rw [planLoop_congr (show opSign Operation.Inverse = opSign Operation.Backward from rfl)
    N (N - 1) 1 (le_refl _)]

/-- Vanishing geometric sum of a nontrivial root of unity. -/
lemma geom_sum_z {n k v : ℕ} (hk : k < 2 ^ n) (hv : v < 2 ^ n) (hne : v ≠ k) :
    ∑ u ∈ Finset.range (2 ^ n), eit (2 * Real.pi * ((k : ℝ) - (v : ℝ)) / 2 ^ n) ^ u = 0 := by
  set z : ℂ := eit (2 * Real.pi * ((k : ℝ) - (v : ℝ)) / 2 ^ n) with hz
  have hpow : (2 : ℝ) ^ n ≠ 0 := by positivity
  have hppos : (0 : ℝ) < 2 ^ n := by positivity
  obtain ⟨w, hw⟩ : ∃ w : ℤ, (w : ℝ) = (k : ℝ) - (v : ℝ) :=
    ⟨(k : ℤ) - (v : ℤ), by push_cast; ring⟩
  have hzN : z ^ (2 ^ n : ℕ) = 1 := by
    rw [hz, ← eit_nat_mul]
    have harg : ((2 ^ n : ℕ) : ℝ) * (2 * Real.pi * ((k : ℝ) - (v : ℝ)) / 2 ^ n)
        = 2 * Real.pi * (w : ℝ) := by
      rw [hw]
      push_cast
      field_simp
    rw [harg]
    exact eit_int_two_pi w
  have hz1 : z ≠ 1 := by
    intro hcon
    rw [hz] at hcon
    unfold eit at hcon
    rw [Complex.exp_eq_one_iff] at hcon
    obtain ⟨m, hm⟩ := hcon
    have hrhs : (m : ℂ) * (2 * (Real.pi : ℂ) * Complex.I)
        = (((m : ℝ) * (2 * Real.pi) : ℝ) : ℂ) * Complex.I := by
      push_cast
      ring
    rw [hrhs] at hm
    have hm2 := mul_right_cancel₀ Complex.I_ne_zero hm
    have him : 2 * Real.pi * ((k : ℝ) - (v : ℝ)) / 2 ^ n = (m : ℝ) * (2 * Real.pi) :=
      Complex.ofReal_inj.mp hm2
    have him' : (2 * Real.pi) * (((k : ℝ) - (v : ℝ)) / 2 ^ n) = (2 * Real.pi) * (m : ℝ) := by
      calc (2 * Real.pi) * (((k : ℝ) - (v : ℝ)) / 2 ^ n)
          = 2 * Real.pi * ((k : ℝ) - (v : ℝ)) / 2 ^ n := by ring
        _ = (m : ℝ) * (2 * Real.pi) := him
        _ = (2 * Real.pi) * (m : ℝ) := by ring
    have h2π : (2 : ℝ) * Real.pi ≠ 0 := by positivity
    have h2 : ((k : ℝ) - (v : ℝ)) / 2 ^ n = (m : ℝ) := mul_left_cancel₀ h2π him'
    have hkv : (k : ℝ) - (v : ℝ) = (m : ℝ) * 2 ^ n := by
      field_simp at h2
      linarith
    have hbk : (k : ℝ) < 2 ^ n := by exact_mod_cast hk
    have hbv : (v : ℝ) < 2 ^ n := by exact_mod_cast hv
    have hk0 : (0 : ℝ) ≤ (k : ℝ) := Nat.cast_nonneg k
    have hv0 : (0 : ℝ) ≤ (v : ℝ) := Nat.cast_nonneg v
    have hlt1 : (m : ℝ) * 2 ^ n < 1 * 2 ^ n := by rw [one_mul]; linarith
    have hm1 : (m : ℝ) < 1 := lt_of_mul_lt_mul_right hlt1 (le_of_lt hppos)
    have hlt2 : (-1 : ℝ) * 2 ^ n < (m : ℝ) * 2 ^ n := by rw [neg_one_mul]; linarith
    have hm2 : (-1 : ℝ) < (m : ℝ) := lt_of_mul_lt_mul_right hlt2 (le_of_lt hppos)
    have hm0 : m = 0 := by
      have h1 : m < 1 := by exact_mod_cast hm1
      have h2m : -1 < m := by exact_mod_cast hm2
      omega
    rw [hm0] at hkv
    simp at hkv
    have hkvr : (k : ℝ) = (v : ℝ) := by linarith
    have hkv2 : k = v := Nat.cast_injective hkvr
    exact hne hkv2.symm
  rw [geom_sum_eq hz1, hzN]
  simp

/-- Applying the positive-sign DFT sum to the negative-sign DFT sum multiplies
the data by the size. -/
lemma dftSum_inversion (n : ℕ) (d : ℕ → ℂ) (k : ℕ) (hk : k < 2 ^ n) :
    dftSum 1 (2 ^ n) (fun u => dftSum (-1) (2 ^ n) d u) k = (2 ^ n : ℂ) * d k := by
  unfold dftSum
  simp only [Finset.sum_mul]
  rw [Finset.sum_comm]
  have hpow : (2 : ℝ) ^ n ≠ 0 := by positivity
  have htrans : (∑ v ∈ Finset.range (2 ^ n), ∑ u ∈ Finset.range (2 ^ n),
      d v * eit (2 * Real.pi * ((k : ℝ) - (v : ℝ)) / 2 ^ n) ^ u)
      = (2 ^ n : ℂ) * d k := by
    rw [Finset.sum_eq_single_of_mem k (Finset.mem_range.mpr hk)]
    · have hzk : eit (2 * Real.pi * ((k : ℝ) - (k : ℝ)) / 2 ^ n) = 1 := by
        rw [show 2 * Real.pi * ((k : ℝ) - (k : ℝ)) / 2 ^ n = 0 from by ring, eit_zero]
      rw [hzk]
      simp only [one_pow, Finset.sum_const, Finset.card_range, nsmul_eq_mul]
      push_cast
      ring
    · intro v hv hvk
      rw [← Finset.mul_sum, geom_sum_z hk (Finset.mem_range.mp hv) hvk, mul_zero]
  rw [← htrans]
  apply Finset.sum_congr rfl
  intro v hv
  apply Finset.sum_congr rfl
  intro u hu
  rw [mul_assoc, ← eit_add, ← eit_nat_mul]
  congr 2
  push_cast
  field_simp
  ring

/-! Pointwise characterisation of unpack. -/

lemma unpackLow_ge {d : ℕ → ℝ} {h i : ℕ} (hge : h ≤ i) (m : ℕ → Option ℂ) :
    unpackLow d h i m = m := by
  rw [unpackLow, dif_neg (by omega)]

lemma unpackLow_spec (d : ℕ → ℝ) (h : ℕ) :
    ∀ cnt i0 m, h ≤ i0 + cnt → ∀ x,
      unpackLow d h i0 m x
        = if i0 ≤ x ∧ x < h then some ⟨d (2 * x), d (2 * x + 1)⟩ else m x := by
  intro cnt
  induction cnt with
  | zero =>
    intro i0 m hm x
    rw [unpackLow_ge (by omega), if_neg (by rintro ⟨h1, h2⟩; omega)]
  | succ cnt ih =>
    intro i0 m hm x
    rcases Nat.lt_or_ge i0 h with hi | hi
    case inr =>
      rw [unpackLow_ge hi, if_neg (by rintro ⟨h1, h2⟩; omega)]
    case inl =>
      rw [unpackLow, dif_pos hi, ih (i0 + 1) _ (by omega) x]
      by_cases hx : i0 + 1 ≤ x ∧ x < h
      · rw [if_pos hx, if_pos ⟨by omega, hx.2⟩]
      · rw [if_neg hx]
        by_cases hxi : x = i0
        · subst hxi
          rw [if_pos ⟨le_refl _, hi⟩, Function.update_same]
        · rw [if_neg (by rintro ⟨h1, h2⟩; exact hx ⟨by omega, h2⟩),
            Function.update_noteq hxi]

lemma unpackHigh_ge {N i : ℕ} (hge : N ≤ i) (m : ℕ → Option ℂ) :
    unpackHigh N i m = m := by
  rw [unpackHigh, dif_neg (by omega)]

/-- The mirroring loop of unpack only reads slots strictly below its own write
range, so its effect admits a pointwise description over the initial region. -/
lemma unpackHigh_spec (N : ℕ) :
    ∀ cnt i0 m, N ≤ i0 + cnt → N + 2 ≤ 2 * i0 → ∀ x,
      unpackHigh N i0 m x
        = if i0 ≤ x ∧ x < N then some ((starRingEnd ℂ) ((m (N - x)).getD 0)) else m x := by
  intro cnt
  induction cnt with
  | zero =>
    intro i0 m hm h2 x
    rw [unpackHigh_ge (by omega), if_neg (by rintro ⟨ha, hb⟩; omega)]
  | succ cnt ih =>
    intro i0 m hm h2 x
    rcases Nat.lt_or_ge i0 N with hi | hi
    case inr =>
      rw [unpackHigh_ge hi, if_neg (by rintro ⟨ha, hb⟩; omega)]
    case inl =>
      rw [unpackHigh, dif_pos hi]
      set m' := Function.update m i0 (some ((starRingEnd ℂ) ((m (N - i0)).getD 0))) with hm'
      rw [ih (i0 + 1) m' (by omega) (by omega) x]
      by_cases hx : i0 + 1 ≤ x ∧ x < N
      · rw [if_pos hx, if_pos ⟨by omega, hx.2⟩, hm', Function.update_noteq (by omega)]
      · rw [if_neg hx]
        by_cases hxi : x = i0
        · subst hxi
          rw [if_pos ⟨le_refl _, hi⟩, hm', Function.update_same]
        · rw [if_neg (by rintro ⟨ha, hb⟩; exact hx ⟨by omega, hb⟩), hm',
            Function.update_noteq hxi]

/-- Full pointwise evaluation of unpack on a power-of-two length. -/
lemma unpackU_eval (n : ℕ) (d : ℕ → ℝ) (x : ℕ) :
    unpackU (2 ^ n) d x
      = if x = 0 then some ((d 0 : ℂ))
        else if x < 2 ^ n / 2 then some ⟨d (2 * x), d (2 * x + 1)⟩
        else if x = 2 ^ n / 2 then some ((d 1 : ℂ))
        else if x < 2 ^ n then
          some ((starRingEnd ℂ) ⟨d (2 * (2 ^ n - x)), d (2 * (2 ^ n - x) + 1)⟩)
        else none := by
  rcases Nat.eq_zero_or_pos n with hn0 | hn1
  · subst hn0
    unfold unpackU
    norm_num
    by_cases hx : x = 0
    · subst hx
      simp
    · rw [Function.update_noteq hx]
      simp [hx]
  · obtain ⟨w, hw⟩ : ∃ w, n = w + 1 := ⟨n - 1, by omega⟩
    subst hw
    have hpow : (2 : ℕ) ^ (w + 1) = 2 * 2 ^ w := by rw [pow_succ]; ring
    have hh : 2 ^ (w + 1) / 2 = 2 ^ w := by omega
    have hwpos : 1 ≤ (2 : ℕ) ^ w := Nat.one_le_two_pow
    unfold unpackU
    rw [hh, if_neg (by omega)]
    rw [unpackHigh_spec (2 ^ (w + 1)) (2 ^ (w + 1)) (2 ^ w + 1) _ (by omega) (by omega) x]
    by_cases hhi : 2 ^ w + 1 ≤ x ∧ x < 2 ^ (w + 1)
    · rw [if_pos hhi, if_neg (by omega), if_neg (by omega), if_neg (by omega),
        if_pos hhi.2]
      have hlow : 2 ^ (w + 1) - x < 2 ^ w := by omega
      have hlow1 : 1 ≤ 2 ^ (w + 1) - x := by omega
      rw [Function.update_noteq (by omega),
        unpackLow_spec d (2 ^ w) (2 ^ w) 1 _ (by omega) (2 ^ (w + 1) - x),
        if_pos ⟨by omega, hlow⟩]
      rfl
    · rw [if_neg hhi]
      by_cases hxh : x = 2 ^ w
      · subst hxh
        rw [Function.update_same, if_neg (by omega), if_neg (by omega), if_pos rfl]
      · rw [Function.update_noteq hxh,
          unpackLow_spec d (2 ^ w) (2 ^ w) 1 _ (by omega) x]
        by_cases hxlow : 1 ≤ x ∧ x < 2 ^ w
        · rw [if_pos hxlow, if_neg (by omega), if_pos (by omega)]
        · rw [if_neg hxlow]
          by_cases hx0 : x = 0
          · subst hx0
            rw [Function.update_same, if_pos rfl]
          · rw [Function.update_noteq hx0, if_neg hx0, if_neg (by omega),
              if_neg (by omega), if_neg (by omega)]

/-! Plan-table agreement between plan sizes. -/

lemma planLoop_extend (op : Operation) (n n' : ℕ) (hnn : n ≤ n') :
    ∀ j a, a + j = n → ∃ rest, planLoop op (2 ^ n') (2 ^ a)
      = planLoop op (2 ^ n) (2 ^ a) ++ rest := by
  intro j
  induction j with
  | zero =>
    intro a ha
    have hsmall : planLoop op (2 ^ n) (2 ^ a) = [] :=
      planLoop_ge op (Nat.pow_le_pow_right (by norm_num) (by omega))
    exact ⟨planLoop op (2 ^ n') (2 ^ a), by rw [hsmall, List.nil_append]⟩
  | succ j ih =>
    intro a ha
    have hlt : (2 : ℕ) ^ a < 2 ^ n := Nat.pow_lt_pow_right (by norm_num) (by omega)
    have hlt' : (2 : ℕ) ^ a < 2 ^ n' := Nat.pow_lt_pow_right (by norm_num) (by omega)
    obtain ⟨rest, hrest⟩ := ih (a + 1) (by omega)
    refine ⟨rest, ?_⟩
    rw [planLoop_unfold op (by positivity) hlt', planLoop_unfold op (by positivity) hlt,
      show 2 * 2 ^ a = 2 ^ (a + 1) from by rw [pow_succ]; ring, hrest, List.append_assoc]

lemma planFactorsList_append (op : Operation) (n : ℕ) :
    ∃ rest, planFactorsList op (2 ^ (n + 1)) = planFactorsList op (2 ^ n) ++ rest := by
  obtain ⟨rest, hrest⟩ := planLoop_extend op n (n + 1) (by omega) n 0 (by omega)
  refine ⟨rest, ?_⟩
  unfold planFactorsList
  simpa using hrest

lemma planFactorsList_take (op : Operation) (n : ℕ) :
    planFactorsList op (2 ^ n) = (planFactorsList op (2 ^ (n + 1))).take (2 ^ n - 1) := by
  obtain ⟨rest, hrest⟩ := planFactorsList_append op n
  rw [hrest, List.take_left' (planFactorsList_length op n)]

lemma planF_agree (op : Operation) (n : ℕ) :
    ∀ y, y < 2 ^ n - 1 → planF op (2 ^ (n + 1)) y = planF op (2 ^ n) y := by
  intro y hy
  obtain ⟨rest, hrest⟩ := planFactorsList_append op n
  unfold planF
  rw [hrest, List.getD_eq_getElem?_getD,
    List.getElem?_append_left (by rw [planFactorsList_length op n]; omega),
    ← List.getD_eq_getElem?_getD]

lemma groupLoop_congr (N step : ℕ) (f1 f2 : ℕ → ℂ) :
    ∀ m c k d, step ≤ c + m → (∀ y, k ≤ y → y < k + (step - c) → f1 y = f2 y) →
      groupLoop N step f1 c k d = groupLoop N step f2 c k d := by
  intro m
  induction m with
  | zero =>
    intro c k d hm hf
    rw [groupLoop_ge (by omega), groupLoop_ge (by omega)]
  | succ m ih =>
    intro c k d hm hf
    rcases Nat.lt_or_ge c step with hc | hc
    · rw [groupLoop_step hc, groupLoop_step hc, hf k (le_refl _) (by omega)]
      exact ih (c + 1) (k + 1) _ (by omega) (fun y h1 h2 => hf y (by omega) (by omega))
    · rw [groupLoop_ge hc, groupLoop_ge hc]

lemma stageLoop_congr (m0 : ℕ) (f1 f2 : ℕ → ℂ)
    (hf : ∀ y, y < 2 ^ m0 - 1 → f1 y = f2 y) :
    ∀ j s d, s + j = m0 →
      stageLoop (2 ^ m0) f1 (2 ^ s) (2 ^ s - 1) d
        = stageLoop (2 ^ m0) f2 (2 ^ s) (2 ^ s - 1) d := by
  intro j
  induction j with
  | zero =>
    intro s d hs
    have hsm : s = m0 := by omega
    subst hsm
    rw [stageLoop_ge (le_refl _), stageLoop_ge (le_refl _)]
  | succ j ih =>
    intro s d hs
    have hpos : (0 : ℕ) < 2 ^ s := by positivity
    have hlt : (2 : ℕ) ^ s < 2 ^ m0 := Nat.pow_lt_pow_right (by norm_num) (by omega)
    have hup : (2 : ℕ) ^ (s + 1) ≤ 2 ^ m0 := Nat.pow_le_pow_right (by norm_num) (by omega)
    have hsum : (2 : ℕ) ^ (s + 1) = 2 ^ s + 2 ^ s := by rw [pow_succ]; ring
    rw [stageLoop_step hpos hlt, stageLoop_step hpos hlt,
      groupLoop_congr (2 ^ m0) (2 ^ s) f1 f2 (2 ^ s) 0 (2 ^ s - 1) d (by omega)
        (fun y h1 h2 => hf y (by omega)),
      show 2 * 2 ^ s = 2 ^ (s + 1) from by rw [pow_succ]; ring,
      show 2 ^ s - 1 + 2 ^ s = 2 ^ (s + 1) - 1 from by
        have h1 : (1 : ℕ) ≤ 2 ^ s := Nat.one_le_two_pow
        omega]
    exact ih (s + 1) _ (by omega)

lemma calculate_congr (m0 : ℕ) (f1 f2 : ℕ → ℂ)
    (hf : ∀ y, y < 2 ^ m0 - 1 → f1 y = f2 y) (d : ℕ → ℂ) :
    calculate (2 ^ m0) f1 d = calculate (2 ^ m0) f2 d := by
  unfold calculate
  have h := stageLoop_congr m0 f1 f2 hf m0 0 d (by omega)
  simpa using h

lemma ctransform_congr (op : Operation) (m0 : ℕ) (f1 f2 : ℕ → ℂ)
    (hf : ∀ y, y < 2 ^ m0 - 1 → f1 y = f2 y) (d : ℕ → ℂ) :
    ctransform op (2 ^ m0) f1 d = ctransform op (2 ^ m0) f2 d := by
  rw [ctransform_eq, ctransform_eq, calculate_congr m0 f1 f2 hf]

lemma composeLoop_ge {M : ℕ} {f : ℕ → ℂ} {sgn : ℂ} {i : ℕ} (h : M / 2 ≤ i) (d : ℕ → ℂ) :
    composeLoop M f sgn i d = d := by
  rw [composeLoop, dif_neg (by omega)]

lemma composeLoop_step {M : ℕ} {f : ℕ → ℂ} {sgn : ℂ} {i : ℕ} (h : i < M / 2) (d : ℕ → ℂ) :
    composeLoop M f sgn i d
      = composeLoop M f sgn (i + 1)
          (Function.update (Function.update d i
              ((d i + (starRingEnd ℂ) (d (M - i))
                + sgn * f (M - (M - i)) * (d i - (starRingEnd ℂ) (d (M - i)))) * (2 : ℂ)⁻¹))
            (M - i)
            ((starRingEnd ℂ) ((d i + (starRingEnd ℂ) (d (M - i))
                - sgn * f (M - (M - i)) * (d i - (starRingEnd ℂ) (d (M - i)))) * (2 : ℂ)⁻¹))) := by
  rw [composeLoop, dif_pos h]

lemma composeLoop_congr (M : ℕ) (sgn : ℂ) (f1 f2 : ℕ → ℂ)
    (hf : ∀ y, 1 ≤ y → y < M / 2 → f1 y = f2 y) :
    ∀ cnt i d, M / 2 ≤ i + cnt → 1 ≤ i →
      composeLoop M f1 sgn i d = composeLoop M f2 sgn i d := by
  intro cnt
  induction cnt with
  | zero =>
    intro i d hm h1
    rw [composeLoop_ge (by omega), composeLoop_ge (by omega)]
  | succ cnt ih =>
    intro i d hm h1
    rcases Nat.lt_or_ge i (M / 2) with hi | hi
    · rw [composeLoop_step hi, composeLoop_step hi,
        show M - (M - i) = i from by omega, hf i h1 hi]
      exact ih (i + 1) _ (by omega) (by omega)
    · rw [composeLoop_ge hi, composeLoop_ge hi]

lemma compose_congr (M : ℕ) (f1 f2 : ℕ → ℂ) (inverse : Bool)
    (hf : ∀ y, 1 ≤ y → y < M / 2 → f1 y = f2 y) (d : ℕ → ℂ) :
    compose M f1 inverse d = compose M f2 inverse d := by
  have hcl : ∀ s d0, composeLoop M f1 s 1 d0 = composeLoop M f2 s 1 d0 :=
    fun s d0 => composeLoop_congr M s f1 f2 hf (M / 2) 1 d0 (by omega) (by omega)
  simp only [compose]
  rcases Nat.eq_zero_or_pos (M / 2) with h0 | h0
  · rw [if_pos h0, if_pos h0]
  · have hne : ¬ (M / 2 = 0) := by omega
    rw [if_neg hne, if_neg hne, hcl]

/-- The real-transform body computes the same result whether it reads the
(reinterpreted) first half of a size-2N factor table or a genuinely built
size-N table: every factor it consults lies in the agreeing region. -/
lemma realTransformBody_congr (op : Operation) (n : ℕ) (f1 f2 : ℕ → ℂ)
    (hf : ∀ y, y < 2 ^ n - 1 → f1 y = f2 y) (d : ℕ → ℝ) :
    realTransformBody op (2 ^ (n + 1)) f1 d = realTransformBody op (2 ^ (n + 1)) f2 d := by
  have hpow : (2 : ℕ) ^ (n + 1) = 2 * 2 ^ n := by rw [pow_succ]; ring
  have hN2 : 2 ^ (n + 1) / 2 = 2 ^ n := by omega
  have hfc : ∀ y, 1 ≤ y → y < 2 ^ n / 2 → f1 y = f2 y := by
    intro y h1 h2
    apply hf
    rcases Nat.eq_zero_or_pos n with hn | hn
    · subst hn
      norm_num at h2
    · obtain ⟨w, hw⟩ : ∃ w, n = w + 1 := ⟨n - 1, by omega⟩
      subst hw
      have ha : (2 : ℕ) ^ (w + 1) = 2 * 2 ^ w := by rw [pow_succ]; ring
      have hb : 2 ^ (w + 1) / 2 = 2 ^ w := by omega
      have hc : (1 : ℕ) ≤ 2 ^ w := Nat.one_le_two_pow
      omega
  have hcompose : ∀ inv d', compose (2 ^ n) f1 inv d' = compose (2 ^ n) f2 inv d' :=
    fun inv d' => compose_congr (2 ^ n) f1 f2 inv hfc d'
  have hct : ∀ d', ctransform op (2 ^ n) f1 d' = ctransform op (2 ^ n) f2 d' :=
    fun d' => ctransform_congr op n f1 f2 hf d'
  have hpos0 : (0 : ℕ) < 2 ^ n := by positivity
  have hne : ¬ ((2 : ℕ) ^ n = 0) := by omega
  cases op
  · simp only [realTransformBody, hN2]
    rw [if_neg hne, if_neg hne, hct, hcompose]
  · simp only [realTransformBody, hN2]
    rw [if_neg hne, if_neg hne, hcompose, hct]
  · simp only [realTransformBody, hN2]
    rw [if_neg hne, if_neg hne, hcompose, hct]

/-! Claim theorems. -/

/-- C1: for every power-of-two N and complex buffer x of length N, transform
with a Forward plan replaces x, in natural order, with its discrete Fourier
transform: at every index k the result is the sum over u of x[u] times
e to the minus 2 pi i k u / N, computed by bit-reversal rearrangement followed
by the radix-2 decimation-in-time butterfly passes. -/
theorem forward_transform_is_dft (n N : ℕ) (hN : N = 2 ^ n) (d : ℕ → ℂ) (k : ℕ)
    (hk : k < N) :
    ctransform Operation.Forward N (planF Operation.Forward N) d k = dftSum (-1) N d k := by
  subst hN
  rw [ctransform_eq, if_neg (by decide)]
  have h := calc_rearrange_dft Operation.Forward n d k hk
  rw [show opSign Operation.Forward = (-1 : ℝ) from rfl] at h
  exact h

/-- Witness for C1 at N = 2. -/
theorem forward_transform_is_dft_witness :
    (2 = 2 ^ 1) ∧ (1 : ℕ) < 2 ∧
      ctransform Operation.Forward 2 (planF Operation.Forward 2) (fun _ => 1) 1
        = dftSum (-1) 2 (fun _ => 1) 1 :=
  ⟨by norm_num, by norm_num,
    forward_transform_is_dft 1 2 (by norm_num) (fun _ => 1) 1 (by norm_num)⟩

/-- C2: for every complex sequence of power-of-two length N, a Forward
transform followed by an Inverse transform restores the buffer exactly under
exact real arithmetic. -/
theorem inverse_forward_roundtrip (n N : ℕ) (hN : N = 2 ^ n) (d : ℕ → ℂ) (k : ℕ)
    (hk : k < N) :
    ctransform Operation.Inverse N (planF Operation.Inverse N)
      (ctransform Operation.Forward N (planF Operation.Forward N) d) k = d k := by
  subst hN
  set X := ctransform Operation.Forward (2 ^ n) (planF Operation.Forward (2 ^ n)) d with hX
  rw [ctransform_eq, if_pos rfl]
  simp only [scale]
  rw [if_pos hk]
  have hcalc := calc_rearrange_dft Operation.Inverse n X k hk
  rw [show opSign Operation.Inverse = (1 : ℝ) from rfl] at hcalc
  rw [hcalc]
  have hsum : dftSum 1 (2 ^ n) X k
      = dftSum 1 (2 ^ n) (fun u => dftSum (-1) (2 ^ n) d u) k := by
    unfold dftSum
    apply Finset.sum_congr rfl
    intro u hu
    congr 1
    rw [hX, ctransform_eq, if_neg (by decide)]
    have h := calc_rearrange_dft Operation.Forward n d u (Finset.mem_range.mp hu)
    rw [show opSign Operation.Forward = (-1 : ℝ) from rfl] at h
    exact h
  rw [hsum, dftSum_inversion n d k hk]
  have hnz : ((2 : ℂ)) ^ n ≠ 0 := pow_ne_zero n (by norm_num)
  push_cast
  field_simp

/-- Witness for C2 at N = 2. -/
theorem inverse_forward_roundtrip_witness :
    (2 = 2 ^ 1) ∧ (0 : ℕ) < 2 ∧
      ctransform Operation.Inverse 2 (planF Operation.Inverse 2)
        (ctransform Operation.Forward 2 (planF Operation.Forward 2) (fun _ => 1)) 0
        = (fun _ => (1 : ℂ)) 0 :=
  ⟨by norm_num, by norm_num,
    inverse_forward_roundtrip 1 2 (by norm_num) (fun _ => 1) 0 (by norm_num)⟩

/-- C3 counterexample: for N = 2 the factor region receives only one write,
not two: the claim that all N elements of the table are written is false. -/
theorem plan_table_not_fully_written :
    (planFactorsList Operation.Forward 2).length ≠ 2 := by
  have h := planFactorsList_length Operation.Forward 1
  norm_num at h
  omega

/-- C3 amended: Plan construction writes exactly N - 1 factor entries, one
stage of step consecutive entries for each step = 1, 2, ..., N / 2 laid out
back to back; the final slot of the length-N region is never written. -/
theorem plan_table_layout (op : Operation) (n N : ℕ) (hN : N = 2 ^ n) :
    (planFactorsList op N).length = N - 1
    ∧ ∀ s t, s < n → t < 2 ^ s →
        (planFactorsList op N).getD (2 ^ s - 1 + t) 0 = stageFactor op (2 ^ s) t := by
  subst hN
  refine ⟨planFactorsList_length op n, fun s t hs ht => ?_⟩
  unfold planFactorsList
  have h := planLoop_getD op n n 0 s t (by omega) (by omega) hs ht
  simpa using h

/-- Witness for the amended C3 at N = 2. -/
theorem plan_table_layout_witness :
    (2 = 2 ^ 1) ∧
      ((planFactorsList Operation.Forward 2).length = 2 - 1
        ∧ ∀ s t, s < 1 → t < 2 ^ s →
            (planFactorsList Operation.Forward 2).getD (2 ^ s - 1 + t) 0
              = stageFactor Operation.Forward (2 ^ s) t) :=
  ⟨by norm_num, plan_table_layout Operation.Forward 1 2 (by norm_num)⟩

/-- C4 counterexample: unpack also carries a power-of-two assertion, so the
Plan assertion is not the only checked failure; at length 3 unpack aborts. -/
theorem unpack_asserts_power_of_two : unpackChecked 3 (fun _ => 0) = none := by
  unfold unpackChecked
  rw [if_neg (by decide)]

/-- C4 amended: Plan construction and unpack each begin with a power-of-two
assertion and these are the only checked failures; both accept exactly the
powers of two. -/
theorem checked_assertions_characterised (op : Operation) (N : ℕ) (d : ℕ → ℝ) :
    ((planNewChecked op N).isSome = isPow2 N)
    ∧ ((unpackChecked N d).isSome = isPow2 N)
    ∧ (isPow2 N = true ↔ ∃ j, N = 2 ^ j) := by
  refine ⟨?_, ?_, ?_⟩
  · unfold planNewChecked
    cases hb : isPow2 N <;> simp [hb]
  · unfold unpackChecked
    cases hb : isPow2 N <;> simp [hb]
  · unfold isPow2
    rw [List.any_eq_true]
    constructor
    · rintro ⟨k, hk, he⟩
      exact ⟨k, beq_iff_eq.mp he⟩
    · rintro ⟨j, rfl⟩
      refine ⟨j, ?_, beq_iff_eq.mpr rfl⟩
      rw [List.mem_range]
      have := Nat.lt_two_pow j
      omega

/-- C5 counterexample: the real-data Transform impl carries the compile-time
bound Assert with N / 2 > 0, so for N = 1 the call is not possible. -/
theorem real_transform_impl_absent_below_two : ¬ realTransformDefined 1 := by
  unfold realTransformDefined
  omega

/-- C5 amended: for N < 2 the real-data impl is not instantiable at all; the
(unreachable) early-return guard of its body would leave the buffer unchanged
had it been callable. -/
theorem real_transform_guard_noop (op : Operation) (N : ℕ) (f : ℕ → ℂ) (d : ℕ → ℝ)
    (h : N / 2 = 0) : ∀ x, realTransformBody op N f d x = d x := by
  intro x
  unfold realTransformBody
  rw [if_pos h]

/-- Witness for the amended C5 at N = 1. -/
theorem real_transform_guard_noop_witness :
    (1 / 2 = 0) ∧ ∀ x, realTransformBody Operation.Forward 1 (fun _ => 0) (fun _ => 1) x
      = (fun _ => (1 : ℝ)) x :=
  ⟨by decide,
    real_transform_guard_noop Operation.Forward 1 (fun _ => 0) (fun _ => 1) (by decide)⟩

/-- C7: a transform with an Inverse plan is exactly a transform with a
Backward plan followed by scaling every element by 1 / N, and Forward and
Backward transforms apply no scaling at all. -/
theorem inverse_is_scaled_backward (N : ℕ) (d : ℕ → ℂ) :
    (∀ k, ctransform Operation.Inverse N (planF Operation.Inverse N) d k
        = scale N (ctransform Operation.Backward N (planF Operation.Backward N) d) k)
    ∧ (∀ k, ctransform Operation.Forward N (planF Operation.Forward N) d k
        = calculate N (planF Operation.Forward N) (rearrange N d) k)
    ∧ (∀ k, ctransform Operation.Backward N (planF Operation.Backward N) d k
        = calculate N (planF Operation.Backward N) (rearrange N d) k) := by
  refine ⟨fun k => ?_, fun k => ?_, fun k => ?_⟩
  · rw [ctransform_eq, if_pos rfl, ctransform_eq, if_neg (by decide), planF_backward_inverse]
  · rw [ctransform_eq, if_neg (by decide)]
  · rw [ctransform_eq, if_neg (by decide)]

/-- C8: under exact arithmetic the factor stored for stage step = 2 ^ s at
offset t is the root of unity with components cos and sin of sign times t pi
over step: the half-angle-sine recurrence is exact, and the table is a pure
function of size and operation. -/
theorem twiddle_factor_values (op : Operation) (n N s t : ℕ) (hN : N = 2 ^ n)
    (hs : s < n) (ht : t < 2 ^ s) :
    (planFactorsList op N).getD (2 ^ s - 1 + t) 0
      = ⟨Real.cos (opSign op * Real.pi * t / 2 ^ s),
         Real.sin (opSign op * Real.pi * t / 2 ^ s)⟩ := by
  subst hN
  unfold planFactorsList
  have h := planLoop_getD op n n 0 s t (by omega) (by omega) hs ht
  simp only [pow_zero] at h
  rw [h, stageFactor_eq, eit_eq_mk]
  have hne : ((2 : ℝ)) ^ s ≠ 0 := by positivity
  apply Complex.ext
  · show Real.cos _ = Real.cos _
    congr 1
    push_cast
    field_simp
  · show Real.sin _ = Real.sin _
    congr 1
    push_cast
    field_simp

/-- Witness for C8 at N = 2, stage 1, offset 0. -/
theorem twiddle_factor_values_witness :
    (2 = 2 ^ 1) ∧ (0 : ℕ) < 1 ∧ (0 : ℕ) < 2 ^ 0 ∧
      (planFactorsList Operation.Forward 2).getD (2 ^ 0 - 1 + 0) 0
        = ⟨Real.cos (opSign Operation.Forward * Real.pi * ((0 : ℕ) : ℝ) / 2 ^ 0),
           Real.sin (opSign Operation.Forward * Real.pi * ((0 : ℕ) : ℝ) / 2 ^ 0)⟩ :=
  ⟨by norm_num, by norm_num, by norm_num,
    twiddle_factor_values Operation.Forward 1 2 0 0 (by norm_num) (by norm_num) (by norm_num)⟩

/-- C9: rearrange realises the bit-reversal permutation (each index receives
the value at its bit-reversed partner) and applying it twice with no
butterfly pass in between restores the original order. -/
theorem rearrange_is_bit_reversal (n N : ℕ) (hN : N = 2 ^ n) (d : ℕ → ℂ) :
    (∀ x, x < N → rearrange N d x = d (bitRev n x))
    ∧ (∀ x, x < N → rearrange N (rearrange N d) x = d x) := by
  subst hN
  constructor
  · intro x hx
    exact rearrange_spec d hx
  · intro x hx
    rw [rearrange_spec _ hx, rearrange_spec d (bitRev_lt n x), bitRev_bitRev n x hx]

/-- Witness for C9 at N = 4. -/
theorem rearrange_is_bit_reversal_witness :
    (4 = 2 ^ 2) ∧
      ((∀ x, x < 4 → rearrange 4 (fun i => (i : ℂ)) x = (fun i => (i : ℂ)) (bitRev 2 x))
        ∧ (∀ x, x < 4 →
            rearrange 4 (rearrange 4 (fun i => (i : ℂ))) x = (fun i => (i : ℂ)) x)) :=
  ⟨by norm_num, rearrange_is_bit_reversal 2 4 (by norm_num) (fun i => (i : ℂ))⟩

/-- C6: unpack fully initialises its length-N output and writes the packed
layout: slot 0 holds (packed[0], 0); slots 1 to N/2 - 1 hold the packed pairs;
slot N/2 holds (packed[1], 0); the upper slots mirror by conjugation; for
N = 1 only the DC bin is produced, and nothing beyond index N - 1 is touched
(the input is never mutated: the model is a pure function of it). -/
theorem unpack_spectrum_layout (n N : ℕ) (hN : N = 2 ^ n) (d : ℕ → ℝ) :
    (∀ i, i < N → (unpackU N d i).isSome = true)
    ∧ unpackU N d 0 = some ⟨d 0, 0⟩
    ∧ (∀ i, N ≤ i → unpackU N d i = none)
    ∧ (2 ≤ N →
        (∀ k, 1 ≤ k → k < N / 2 → unpackU N d k = some ⟨d (2 * k), d (2 * k + 1)⟩)
        ∧ unpackU N d (N / 2) = some ⟨d 1, 0⟩
        ∧ (∀ k, N / 2 + 1 ≤ k → k < N →
            unpackU N d k = some ((starRingEnd ℂ) ((unpackU N d (N - k)).getD 0)))) := by
  subst hN
  have hone : (1 : ℕ) ≤ 2 ^ n := Nat.one_le_two_pow
  have hdlt : 2 ^ n / 2 < 2 ^ n := Nat.div_lt_self (by omega) (by norm_num)
  refine ⟨?_, ?_, ?_, ?_⟩
  · intro i hi
    rw [unpackU_eval]
    split_ifs <;> first | rfl | exact absurd hi (by assumption)
  · rw [unpackU_eval n d 0, if_pos rfl]
    rfl
  · intro i hi
    rw [unpackU_eval n d i, if_neg (by omega), if_neg (by omega), if_neg (by omega),
      if_neg (by omega)]
  · intro h2N
    have hn1 : 1 ≤ n := by
      rcases Nat.eq_zero_or_pos n with h | h
      · subst h
        norm_num at h2N
      · exact h
    obtain ⟨w, hw⟩ : ∃ w, n = w + 1 := ⟨n - 1, by omega⟩
    subst hw
    have hpow : (2 : ℕ) ^ (w + 1) = 2 * 2 ^ w := by rw [pow_succ]; ring
    have hh : 2 ^ (w + 1) / 2 = 2 ^ w := by omega
    have hwpos : 1 ≤ (2 : ℕ) ^ w := Nat.one_le_two_pow
    refine ⟨?_, ?_, ?_⟩
    · intro k hk1 hk2
      rw [unpackU_eval (w + 1) d k, if_neg (by omega), if_pos hk2]
    · rw [unpackU_eval (w + 1) d (2 ^ (w + 1) / 2), if_neg (by omega), if_neg (by omega),
        if_pos rfl]
      rfl
    · intro k hk1 hk2
      rw [unpackU_eval (w + 1) d k, if_neg (by omega), if_neg (by omega),
        if_neg (by omega), if_pos hk2]
      rw [unpackU_eval (w + 1) d (2 ^ (w + 1) - k), if_neg (by omega), if_pos (by omega),
        Option.getD_some]

/-- Witness for C6 at N = 2. -/
theorem unpack_spectrum_layout_witness :
    (2 = 2 ^ 1) ∧
      ((∀ i, i < 2 → (unpackU 2 (fun i => (i : ℝ)) i).isSome = true)
      ∧ unpackU 2 (fun i => (i : ℝ)) 0 = some ⟨((0 : ℕ) : ℝ), 0⟩
      ∧ (∀ i, 2 ≤ i → unpackU 2 (fun i => (i : ℝ)) i = none)
      ∧ (2 ≤ 2 →
          (∀ k, 1 ≤ k → k < 2 / 2 → unpackU 2 (fun i => (i : ℝ)) k
            = some ⟨((2 * k : ℕ) : ℝ), ((2 * k + 1 : ℕ) : ℝ)⟩)
          ∧ unpackU 2 (fun i => (i : ℝ)) (2 / 2) = some ⟨((1 : ℕ) : ℝ), 0⟩
          ∧ (∀ k, 2 / 2 + 1 ≤ k → k < 2 →
              unpackU 2 (fun i => (i : ℝ)) k
                = some ((starRingEnd ℂ) ((unpackU 2 (fun i => (i : ℝ)) (2 - k)).getD 0))))) :=
  ⟨by norm_num, unpack_spectrum_layout 1 2 (by norm_num) (fun i => (i : ℝ))⟩

/-- C10: for every power-of-two N at least 2 and every operation, the factor
table Plan::new builds for size N / 2 is an initial segment (the first
N / 2 - 1 entries) of the table it builds for size N, and consequently the
real transform body produces identical output whether its factor reads go
through the reinterpreted size-N table or through a genuinely constructed
size-N / 2 table: the implementation refines the structural recursion over a
separately built half-size plan. -/
theorem reinterpreted_plan_refines (op : Operation) (n N : ℕ) (hN : N = 2 ^ (n + 1))
    (d : ℕ → ℝ) :
    planFactorsList op (N / 2) = (planFactorsList op N).take (N / 2 - 1)
      ∧ ∀ x, realTransformBody op N (planF op N) d x
          = realTransformBody op N (planF op (N / 2)) d x := by
  subst hN
  have hpow : (2 : ℕ) ^ (n + 1) = 2 * 2 ^ n := by rw [pow_succ]; ring
  have hN2 : 2 ^ (n + 1) / 2 = 2 ^ n := by omega
  constructor
  · rw [hN2]
    exact planFactorsList_take op n
  · intro x
    rw [hN2]
    exact congrFun (realTransformBody_congr op n (planF op (2 ^ (n + 1))) (planF op (2 ^ n))
      (planF_agree op n) d) x

/-- Witness for C10 at N = 4 with the Forward operation. -/
theorem reinterpreted_plan_refines_witness :
    ((4 : ℕ) = 2 ^ (1 + 1)) ∧
      (planFactorsList Operation.Forward (4 / 2)
          = (planFactorsList Operation.Forward 4).take (4 / 2 - 1)
        ∧ ∀ x, realTransformBody Operation.Forward 4
              (planF Operation.Forward 4) (fun u => (u : ℝ)) x
            = realTransformBody Operation.Forward 4
              (planF Operation.Forward (4 / 2)) (fun u => (u : ℝ)) x) :=
  ⟨by norm_num,
    reinterpreted_plan_refines Operation.Forward 1 4 (by norm_num) (fun u => (u : ℝ))⟩

end DFT
